import Mathlib

/-!
Verification of the EstateMate prediction proxy (src/server/index.js).

The development shallowly embeds the three core functions of the prediction
proxy:

* `deepFindNumber`  — the stack-based, visited-set traversal that extracts a
  numeric value from an arbitrary (possibly cyclic) JSON-like object graph;
* `choosePlausibleTotal` — the plausibility resolver that generates candidate
  interpretations of a raw model output and selects one;
* `tryAllShapes` — the dispatcher that probes six (path, body-shape)
  combinations against the upstream endpoint plus one final fallback call.

JavaScript numbers are modelled by a linear ordered field `α` (instantiated
at `ℚ` for executable witnesses and at `ℝ` when the transcendental functions
`Math.exp` / `Math.pow(10, ·)` matter), extended with explicit
non-finite values (`JSNum`).  Finite-arithmetic overflow and floating-point
rounding are not modelled; the non-finite results of `Math.exp` / `Math.pow`
are modelled by letting those functions return an arbitrary `JSNum`.
JSON-like object graphs are modelled by an explicit heap (a list of nodes,
each a list of key/value entries; object identity = heap index), so cyclic
and shared structures are expressible, exactly the situation the source's
identity-based visited set is designed for.  JavaScript arrays are objects
whose `Object.entries` are index-keyed, so one node type covers both.
-/

set_option maxRecDepth 4000
set_option maxHeartbeats 1000000

namespace EstateMate

/-- A JavaScript number: either a finite value of the carrier field, or one
of the non-finite values `Infinity`, `-Infinity`, `NaN`. -/
inductive JSNum (α : Type) where
  | finite (x : α)
  | posInf
  | negInf
  | nan
  deriving DecidableEq

/-- A JSON-like JavaScript value.  Objects (and arrays) live in an ambient
heap and are referenced by index, so that object identity, sharing and
cycles are representable. -/
inductive JSVal (α : Type) where
  | null
  | boolean (b : Bool)
  | num (x : JSNum α)
  | str (s : String)
  | ref (id : ℕ)
  deriving DecidableEq

/-- The ambient object heap: node `i` has entry list `heap[i]`
(key/value pairs, in `Object.entries` order). -/
abbrev Heap (α : Type) := List (List (String × JSVal α))

/-- `Object.entries` of heap node `id` (a dangling reference, which cannot
occur for a JavaScript object graph, is treated as an entry-less node). -/
def entriesOf {α : Type} (heap : Heap α) (id : ℕ) : List (String × JSVal α) :=
  (heap[id]?).getD []

/-- `listIsPref p l` is true iff the char list `p` is an initial segment
of `l`. -/
def listIsPref : List Char → List Char → Bool
  | [], _ => true
  | _ :: _, [] => false
  | a :: as, b :: bs => a == b && listIsPref as bs

/-- `listHasSub p l` is true iff `p` occurs as a contiguous sublist of
`l` (JavaScript `String.prototype.includes` / an unanchored regex literal
search). -/
def listHasSub (p : List Char) : List Char → Bool
  | [] => listIsPref p []
  | c :: ts => listIsPref p (c :: ts) || listHasSub p ts

/-- ASCII lower-casing of a character (enough for the `/i` regex flag on the
ASCII key vocabulary of the source). -/
def lowerChar (c : Char) : Char :=
  if 65 ≤ c.toNat ∧ c.toNat ≤ 90 then Char.ofNat (c.toNat + 32) else c

/-- The hit-key test of `deepFindNumber`:
`/pred(i(ct|cted)?)?_?price|price|pred(i(ct|ction))|value|amount/i.test(k)`.

Every string matched by the first alternative ends in the literal `price`,
so alternatives one and two together match exactly the strings containing
`price`; the third alternative matches `predict` or `prediction`, i.e.
exactly the strings containing `predict`.  Hence the regex test is
equivalent to: the lower-cased key contains `price`, `predict`, `value` or
`amount` as a substring. -/
def keyHit (k : String) : Bool :=
  let l := k.toList.map lowerChar
  listHasSub "price".toList l || listHasSub "predict".toList l ||
    listHasSub "value".toList l || listHasSub "amount".toList l

/-- Numeric value of a list of decimal digit characters. -/
def digitsVal (cs : List Char) : ℕ :=
  cs.foldl (fun n c => 10 * n + (c.toNat - 48)) 0

/-- Parse a non-negative plain decimal (`\d+(\.\d+)?`, anchored) from a char
list. -/
def parseUnsignedDec {α : Type} [LinearOrderedField α] (cs : List Char) : Option α :=
  let intDs := cs.takeWhile Char.isDigit
  let rest := cs.drop intDs.length
  if intDs.isEmpty then none
  else
    match rest with
    | [] => some (digitsVal intDs : α)
    | '.' :: fds =>
      if !fds.isEmpty && fds.all Char.isDigit then
        some ((digitsVal intDs : α) + (digitsVal fds : α) / (10 : α) ^ fds.length)
      else none
    | _ => none

/-- Parse an anchored plain decimal `^-?\d+(\.\d+)?$` from a char list. -/
def parseDecimal {α : Type} [LinearOrderedField α] (cs : List Char) : Option α :=
  match cs with
  | '-' :: rest => (parseUnsignedDec rest).map (fun x => -x)
  | _ => parseUnsignedDec cs

/-- The string-to-number step of `deepFindNumber`:
`v.replace(/[, ]/g,'').match(/^(-?\d+(\.\d+)?)$/)` followed by `Number`.
Thousands separators (commas) and spaces are stripped anywhere, then the
whole remainder must be a plain decimal.  (In the model a successfully
matched decimal is always finite, so the subsequent `isFinite` guard of the
source is vacuous.) -/
def parseNumStr {α : Type} [LinearOrderedField α] (s : String) : Option α :=
  parseDecimal (s.toList.filter (fun c => !(c == ',' || c == ' ')))

/-- Strip leading and trailing spaces (the JavaScript `Number()` conversion
trims whitespace before parsing). -/
def trimSpaces (cs : List Char) : List Char :=
  ((cs.dropWhile (· == ' ')).reverse.dropWhile (· == ' ')).reverse

/-- JavaScript `Number(v)` conversion (restricted to plain decimal string
syntax; exponent/hex string forms do not occur in this system). -/
def jsToNumber {α : Type} [LinearOrderedField α] : JSVal α → JSNum α
  | .null => .finite 0
  | .boolean b => .finite (if b then 1 else 0)
  | .num x => x
  | .str s =>
    let t := trimSpaces s.toList
    if t.isEmpty then .finite 0
    else
      match parseDecimal (α := α) t with
      | some q => .finite q
      | none => .nan
  | .ref _ => .nan

/-- `Number(v)` where `v` may be `undefined` (an absent property):
`Number(undefined) = NaN`. -/
def jsToNumberU {α : Type} [LinearOrderedField α] : Option (JSVal α) → JSNum α
  | none => .nan
  | some v => jsToNumber v

/-- JavaScript property lookup on an object literal, as an association
list. -/
def lookupKey {α : Type} (l : List (String × JSVal α)) (k : String) : Option (JSVal α) :=
  (l.find? (fun p => p.1 == k)).map (·.2)

/-- JavaScript `x || 0` on a number: `NaN` (and `±0`, unchanged) fall back
to `0`, everything else is kept. -/
def jsOr0 {α : Type} [LinearOrderedField α] : JSNum α → JSNum α
  | .nan => .finite 0
  | x => x

/-- JavaScript multiplication on numbers, including the IEEE rules for the
non-finite values (`Infinity * 0 = NaN`, sign-propagation, `NaN`
absorption).  Finite overflow is not modelled. -/
def jsMul {α : Type} [LinearOrderedField α] : JSNum α → JSNum α → JSNum α
  | .nan, _ => .nan
  | .finite _, .nan => .nan
  | .posInf, .nan => .nan
  | .negInf, .nan => .nan
  | .finite a, .finite b => .finite (a * b)
  | .finite a, .posInf => if 0 < a then .posInf else if a < 0 then .negInf else .nan
  | .finite a, .negInf => if 0 < a then .negInf else if a < 0 then .posInf else .nan
  | .posInf, .finite b => if 0 < b then .posInf else if b < 0 then .negInf else .nan
  | .negInf, .finite b => if 0 < b then .negInf else if b < 0 then .posInf else .nan
  | .posInf, .posInf => .posInf
  | .posInf, .negInf => .negInf
  | .negInf, .posInf => .negInf
  | .negInf, .negInf => .posInf

/-- JavaScript `x > 0` on a number (`NaN > 0` is false). -/
def jsGt0 {α : Type} [LinearOrderedField α] : JSNum α → Bool
  | .finite x => decide (0 < x)
  | .posInf => true
  | .negInf => false
  | .nan => false

/-- One candidate interpretation of a raw model output:
`{ n: <value>, rule: <tag> }`. -/
structure Cand (α : Type) where
  n : α
  rule : String
  deriving DecidableEq

/-- The body of the source's `push` helper:
`const n = Number(val); if (Number.isFinite(n)) cands.push({n, rule});` —
a non-finite value contributes nothing. -/
def candOf {α : Type} : JSNum α → String → List (Cand α)
  | .finite x, r => [⟨x, r⟩]
  | .posInf, _ => []
  | .negInf, _ => []
  | .nan, _ => []

/-- `push(val, rule)` of the source: append the candidate if its value is
finite. -/
def pushC {α : Type} (l : List (Cand α)) (v : JSNum α) (r : String) : List (Cand α) :=
  l ++ candOf v r

/-- The candidate list generated by `choosePlausibleTotal`, in source push
order.  `e` and `p10` model `Math.exp` and `(x ↦ Math.pow(10, x))`; they
may return non-finite values (overflow), which `push` then discards. -/
def genCands {α : Type} [LinearOrderedField α] (e p10 : α → JSNum α)
    (rawNumber : α) (area : JSNum α) : List (Cand α) :=
  let c1 := pushC [] (.finite rawNumber) "raw"
  let c2 :=
    if jsGt0 area then
      pushC (pushC (pushC c1 (jsMul (.finite rawNumber) area) "per_sqm")
        (jsMul (e rawNumber) area) "exp_per_sqm")
        (jsMul (p10 rawNumber) area) "pow10_per_sqm"
    else c1
  pushC (pushC (pushC c2 (e rawNumber) "exp") (p10 rawNumber) "pow10")
    (.finite (rawNumber * 1000)) "x1000"

/-- The same seven value/tag pairs before the finiteness filter of `push`
(used to state what the filter discards). -/
def rawCandPairs {α : Type} [LinearOrderedField α] (e p10 : α → JSNum α)
    (rawNumber : α) (area : JSNum α) : List (JSNum α × String) :=
  [((.finite rawNumber : JSNum α), "raw")] ++
    (if jsGt0 area then
      [(jsMul (.finite rawNumber) area, "per_sqm"),
       (jsMul (e rawNumber) area, "exp_per_sqm"),
       (jsMul (p10 rawNumber) area, "pow10_per_sqm")]
    else []) ++
    [(e rawNumber, "exp"), (p10 rawNumber, "pow10"),
     ((.finite (rawNumber * 1000) : JSNum α), "x1000")]

/-- The finiteness filter applied by `push` to a generated value/tag pair. -/
def keepFinite {α : Type} : JSNum α × String → Option (Cand α)
  | (.finite x, r) => some ⟨x, r⟩
  | (.posInf, _) => none
  | (.negInf, _) => none
  | (.nan, _) => none

/-- `rule.includes('per_sqm')` (case-sensitive substring test). -/
def isPerSqm (r : String) : Bool :=
  listHasSub "per_sqm".toList r.toList

/-- The per-area preference bonus used by the plausible-candidate
comparator: `rule.includes('per_sqm') ? 1 : 0`. -/
def candBonus {α : Type} (c : Cand α) : ℕ :=
  if isPerSqm c.rule then 1 else 0

/-- `a` strictly precedes `b` under the plausible-candidate comparator
`(a,b) => bBonus - aBonus || b.n - a.n` (i.e. the comparator is negative):
higher bonus first, then larger value first. -/
def prec1 {α : Type} [LinearOrderedField α] (a b : Cand α) : Bool :=
  decide (candBonus b < candBonus a) ||
    (decide (candBonus a = candBonus b) && decide (b.n < a.n))

/-- `a` strictly precedes `b` under the fallback comparator
`(a,b) => b.n - a.n`: larger value first. -/
def prec2 {α : Type} [LinearOrderedField α] (a b : Cand α) : Bool :=
  decide (b.n < a.n)

/-- Stable insertion into a list sorted by the strict-precedence test
`prec`: skip over every element that strictly precedes `x`. -/
def insertCand {α : Type} (prec : Cand α → Cand α → Bool) (x : Cand α) :
    List (Cand α) → List (Cand α)
  | [] => [x]
  | y :: ys => if prec y x then y :: insertCand prec x ys else x :: y :: ys

/-- Stable sort by the strict-precedence test `prec`, modelling
`Array.prototype.sort` with a consistent comparator (the element at index 0
of the result is what the source reads). -/
def sortCands {α : Type} (prec : Cand α → Cand α → Bool) :
    List (Cand α) → List (Cand α)
  | [] => []
  | x :: xs => insertCand prec x (sortCands prec xs)

/-- The plausibility filter: candidates whose value lies in
`[PL_MIN, PL_MAX] = [50000, 2000000000]`, inclusive. -/
def plausibleOf {α : Type} [LinearOrderedField α] (cands : List (Cand α)) : List (Cand α) :=
  cands.filter (fun c => decide ((50000 : α) ≤ c.n ∧ c.n ≤ 2000000000))

/-- `Number(features.procedure_area) || 0` — the area read by
`choosePlausibleTotal`. -/
def areaOf {α : Type} [LinearOrderedField α] (features : List (String × JSVal α)) : JSNum α :=
  jsOr0 (jsToNumberU (lookupKey features "procedure_area"))

/-- `choosePlausibleTotal(rawNumber, features)`: generate the candidates,
filter to the plausible range; if any candidate is plausible return the
first element of the plausible list sorted by (per-sqm bonus, value), else
return the largest-value candidate overall (or `{n: rawNumber, rule:'raw'}`
if there are no candidates at all). -/
def choosePlausibleTotal {α : Type} [LinearOrderedField α] (e p10 : α → JSNum α)
    (rawNumber : α) (features : List (String × JSVal α)) : Cand α :=
  let cands := genCands e p10 rawNumber (areaOf features)
  match sortCands prec1 (plausibleOf cands) with
  | h :: _ => h
  | [] =>
    match sortCands prec2 cands with
    | h :: _ => h
    | [] => ⟨rawNumber, "raw"⟩

/-- Result of scanning the entries of one object in `deepFindNumber`:
either an early `return` with a hit-key numeric value, or the loop body
completes with an updated fallback `best` and the list of child objects
pushed (in entry order). -/
def scanEntries {α : Type} [LinearOrderedField α] :
    List (String × JSVal α) → Option α → List (JSVal α) → α ⊕ (Option α × List (JSVal α))
  | [], best, acc => .inr (best, acc)
  | (k, v) :: rest, best, acc =>
    match v with
    | .null => scanEntries rest best acc
    | .boolean _ => scanEntries rest best acc
    | .num (.finite x) =>
      if keyHit k then .inl x
      else scanEntries rest (if best.isNone then some x else best) acc
    | .num .posInf => scanEntries rest best acc
    | .num .negInf => scanEntries rest best acc
    | .num .nan => scanEntries rest best acc
    | .str s =>
      match parseNumStr (α := α) s with
      | some x =>
        if keyHit k then .inl x
        else scanEntries rest (if best.isNone then some x else best) acc
      | none => scanEntries rest best acc
    | .ref i => scanEntries rest best (acc ++ [JSVal.ref i])

/-- Number of heap nodes not yet in the visited set (the primary component
of the termination measure of the traversal loop). -/
def unvisCount {α : Type} (heap : Heap α) (visited : List ℕ) : ℕ :=
  ((Finset.range heap.length).filter (fun i => i ∉ visited)).card

theorem unvisCount_lt {α : Type} (heap : Heap α) (visited : List ℕ) {id : ℕ}
    (hlt : id < heap.length) (hmem : id ∉ visited) :
    unvisCount heap (id :: visited) < unvisCount heap visited := by
  apply Finset.card_lt_card
  constructor
  · intro i hi
    simp only [Finset.mem_filter, Finset.mem_range, List.mem_cons] at hi ⊢
    exact ⟨hi.1, fun h => hi.2 (Or.inr h)⟩
  · intro hsub
    have hid : id ∈ (Finset.range heap.length).filter (fun i => i ∉ visited) := by
      simp only [Finset.mem_filter, Finset.mem_range]
      exact ⟨hlt, hmem⟩
    have h2 := hsub hid
    simp at h2

theorem unvisCount_eq {α : Type} (heap : Heap α) (visited : List ℕ) {id : ℕ}
    (hge : heap.length ≤ id) :
    unvisCount heap (id :: visited) = unvisCount heap visited := by
  unfold unvisCount
  congr 1
  apply Finset.filter_congr
  intro i hi
  simp only [Finset.mem_range] at hi
  have : i ≠ id := Nat.ne_of_lt (lt_of_lt_of_le hi hge)
  simp [List.mem_cons, this]

/-- The main loop of `deepFindNumber`: pop a value; skip it unless it is an
unvisited object; scan its entries (possibly returning a hit immediately),
mark it visited and push its child objects.  When the stack is exhausted,
return the remembered non-hit fallback. -/
def deepFindLoop {α : Type} [LinearOrderedField α] (heap : Heap α) :
    List (JSVal α) → List ℕ → Option α → Option α
  | [], _, best => best
  | cur :: rest, visited, best =>
    match cur with
    | .ref id =>
      if hv : id ∈ visited then deepFindLoop heap rest visited best
      else
        match hs : scanEntries (entriesOf heap id) best [] with
        | .inl x => some x
        | .inr (b', cs) => deepFindLoop heap (cs.reverse ++ rest) (id :: visited) b'
    | .null => deepFindLoop heap rest visited best
    | .boolean _ => deepFindLoop heap rest visited best
    | .num _ => deepFindLoop heap rest visited best
    | .str _ => deepFindLoop heap rest visited best
termination_by stack visited _ => (unvisCount heap visited, stack.length)
decreasing_by
  all_goals try (apply Prod.Lex.right; simp)
  rcases Nat.lt_or_ge id heap.length with hlt | hge
  · exact Prod.Lex.left _ _ (unvisCount_lt heap visited hlt hv)
  · have hent : entriesOf heap id = [] := by
      unfold entriesOf
      rw [List.getElem?_eq_none hge]
      rfl
    rw [hent] at hs
    simp only [scanEntries] at hs
    cases hs
    rw [unvisCount_eq heap visited hge]
    apply Prod.Lex.right
    simp

/-- `deepFindNumber(obj)`: search the object graph for a numeric-looking
prediction, starting from `root` with an empty visited set and no fallback
yet. -/
def deepFindNumber {α : Type} [LinearOrderedField α] (heap : Heap α) (root : JSVal α) : Option α :=
  deepFindLoop heap [root] [] none

/-- Step-indexed version of the traversal loop: one unit of fuel per loop
iteration, `none` when the fuel runs out with work remaining.  Used to state
termination of the source's `while (stack.length)` loop as a theorem. -/
def deepFindFuel {α : Type} [LinearOrderedField α] (heap : Heap α) :
    ℕ → List (JSVal α) → List ℕ → Option α → Option (Option α)
  | _, [], _, best => some best
  | 0, _ :: _, _, _ => none
  | fuel + 1, cur :: rest, visited, best =>
    match cur with
    | .ref id =>
      if id ∈ visited then deepFindFuel heap fuel rest visited best
      else
        match scanEntries (entriesOf heap id) best [] with
        | .inl x => some (some x)
        | .inr (b', cs) => deepFindFuel heap fuel (cs.reverse ++ rest) (id :: visited) b'
    | _ => deepFindFuel heap fuel rest visited best

/-- Instrumented version of the traversal loop that additionally records, in
order, the identities of the object nodes it processes (i.e. adds to the
visited set).  Used to state the processed-at-most-once property. -/
def deepFindTrace {α : Type} [LinearOrderedField α] (heap : Heap α) :
    List (JSVal α) → List ℕ → Option α → Option α × List ℕ
  | [], _, best => (best, [])
  | cur :: rest, visited, best =>
    match cur with
    | .ref id =>
      if hv : id ∈ visited then deepFindTrace heap rest visited best
      else
        match hs : scanEntries (entriesOf heap id) best [] with
        | .inl x => (some x, [id])
        | .inr (b', cs) =>
          let r := deepFindTrace heap (cs.reverse ++ rest) (id :: visited) b'
          (r.1, id :: r.2)
    | .null => deepFindTrace heap rest visited best
    | .boolean _ => deepFindTrace heap rest visited best
    | .num _ => deepFindTrace heap rest visited best
    | .str _ => deepFindTrace heap rest visited best
termination_by stack visited _ => (unvisCount heap visited, stack.length)
decreasing_by
  all_goals try (apply Prod.Lex.right; simp)
  rcases Nat.lt_or_ge id heap.length with hlt | hge
  · exact Prod.Lex.left _ _ (unvisCount_lt heap visited hlt hv)
  · have hent : entriesOf heap id = [] := by
      unfold entriesOf
      rw [List.getElem?_eq_none hge]
      rfl
    rw [hent] at hs
    simp only [scanEntries] at hs
    cases hs
    rw [unvisCount_eq heap visited hge]
    apply Prod.Lex.right
    simp

/-- `j` is the target of a reference-valued entry of heap node `i`. -/
def HasRefEntry {α : Type} (heap : Heap α) (i j : ℕ) : Prop :=
  ∃ k, (k, JSVal.ref j) ∈ entriesOf heap i

/-- Reachability in the object graph along reference entries, using only
nodes outside the avoid set (all nodes on the path, endpoints included,
avoid it). -/
inductive ReachA {α : Type} (heap : Heap α) (avoid : List ℕ) : ℕ → ℕ → Prop
  | refl (i : ℕ) (hi : i ∉ avoid) : ReachA heap avoid i i
  | step {i j k : ℕ} (hi : i ∉ avoid) (hij : HasRefEntry heap i j)
      (hjk : ReachA heap avoid j k) : ReachA heap avoid i k

/-- The numeric reading `deepFindNumber` applies to an entry value: a finite
number, or a string that parses as a plain decimal after stripping commas
and spaces; anything else has no numeric reading. -/
def numValOf {α : Type} [LinearOrderedField α] : JSVal α → Option α
  | .num (.finite x) => some x
  | .str s => parseNumStr s
  | _ => none

/-- Heap node `m` has an entry whose key matches the hit pattern and whose
value reads as the number `v`. -/
def HitPair {α : Type} [LinearOrderedField α] (heap : Heap α) (m : ℕ) (v : α) : Prop :=
  ∃ k val, (k, val) ∈ entriesOf heap m ∧ keyHit k = true ∧ numValOf val = some v

/-- Heap node `m` has some hit-key numeric entry. -/
def HitAt {α : Type} [LinearOrderedField α] (heap : Heap α) (m : ℕ) : Prop :=
  ∃ v, HitPair heap m v

/-- Root values that are JavaScript objects (heap references). -/
def isRefVal {α : Type} : JSVal α → Bool
  | .ref _ => true
  | _ => false

/-! ### The dispatcher (`tryAllShapes`) -/

/-- The two upstream endpoint paths probed by the dispatcher: `/predict`
and the root path `/`. -/
inductive JPath where
  | predict
  | rootPath
  deriving DecidableEq

/-- The three request body wrappings probed by the dispatcher: the body
itself, `{data: body}`, and `{data: [body]}`. -/
inductive BodyShape where
  | plain
  | inData
  | inDataList
  deriving DecidableEq

/-- A parsed upstream response document: its object heap and root value. -/
structure Doc (α : Type) where
  heap : Heap α
  root : JSVal α
  deriving DecidableEq

/-- The fixed attempt order of `tryAllShapes`: paths in outer-loop order
(`/predict` first, then root), body shapes in inner-loop order. -/
def attemptList : List (JPath × BodyShape) :=
  [(.predict, .plain), (.predict, .inData), (.predict, .inDataList),
   (.rootPath, .plain), (.rootPath, .inData), (.rootPath, .inDataList)]

/-- The object returned by `tryAllShapes` to the route handler. -/
structure ProxyResult (α : Type) where
  status : ℕ
  raw : Doc α
  predicted_price_raw : Option α
  predicted_price : Option α
  used_rule : Option String
  deriving DecidableEq

/-- The double `for` loop of `tryAllShapes` over the given attempt list:
issue the POST for each attempt in order; a transport error rejects the
whole dispatch; the first response from which `deepFindNumber` extracts a
number stops the loop and yields the attempt's status, document and raw
number. -/
def firstHitAux {α ε : Type} [LinearOrderedField α]
    (post : JPath × BodyShape → Except ε (ℕ × Doc α)) :
    List (JPath × BodyShape) → Except ε (Option (ℕ × Doc α × α))
  | [] => .ok none
  | a :: rest =>
    match post a with
    | .error err => .error err
    | .ok (st, doc) =>
      match deepFindNumber doc.heap doc.root with
      | some n => .ok (some (st, doc, n))
      | none => firstHitAux post rest

/-- `tryAllShapes(body)`: run the six attempts in canonical order; on the
first hit resolve the raw number against the request features and return.
If no attempt hits, make one final call to `/predict` with the unwrapped
body; resolve its number if it has one, otherwise return the null result
carrying the final attempt's status and raw document.  (`deepFindNumber`
only ever returns finite numbers, so `isFinite(rawNum ?? NaN)` is the
`some`-test on its result, and the chosen candidate's value is always
finite.) -/
def tryAllShapes {α ε : Type} [LinearOrderedField α] (e p10 : α → JSNum α)
    (post : JPath × BodyShape → Except ε (ℕ × Doc α))
    (body : List (String × JSVal α)) : Except ε (ProxyResult α) :=
  match firstHitAux post attemptList with
  | .error err => .error err
  | .ok (some (st, doc, n)) =>
    let chosen := choosePlausibleTotal e p10 n body
    .ok ⟨st, doc, some n, some chosen.n, some chosen.rule⟩
  | .ok none =>
    match post (.predict, .plain) with
    | .error err => .error err
    | .ok (st, doc) =>
      match deepFindNumber doc.heap doc.root with
      | some n =>
        let chosen := choosePlausibleTotal e p10 n body
        .ok ⟨st, doc, some n, some chosen.n, some chosen.rule⟩
      | none => .ok ⟨st, doc, none, none, none⟩

/-- The calls the attempt loop issues, in order (instrumentation of
`firstHitAux`). -/
def firstHitCalls {α ε : Type} [LinearOrderedField α]
    (post : JPath × BodyShape → Except ε (ℕ × Doc α)) :
    List (JPath × BodyShape) → List (JPath × BodyShape)
  | [] => []
  | a :: rest =>
    match post a with
    | .error _ => [a]
    | .ok (_, doc) =>
      match deepFindNumber doc.heap doc.root with
      | some _ => [a]
      | none => a :: firstHitCalls post rest

/-- All calls a run of `tryAllShapes` issues, in order: the loop's calls,
plus the final direct `/predict` call when the loop exhausts all six
attempts without a hit. -/
def tryAllShapesCalls {α ε : Type} [LinearOrderedField α]
    (post : JPath × BodyShape → Except ε (ℕ × Doc α)) : List (JPath × BodyShape) :=
  match firstHitAux post attemptList with
  | .ok none => firstHitCalls post attemptList ++ [(.predict, .plain)]
  | _ => firstHitCalls post attemptList

/-- Lift an error-free upstream oracle into the `Except`-valued interface. -/
def okOracle {α ε : Type} (o : JPath × BodyShape → ℕ × Doc α) :
    JPath × BodyShape → Except ε (ℕ × Doc α) :=
  fun a => .ok (o a)

/-- An attempt against oracle `o` yields a number. -/
def hitAt {α : Type} [LinearOrderedField α] (o : JPath × BodyShape → ℕ × Doc α)
    (a : JPath × BodyShape) : Bool :=
  (deepFindNumber (o a).2.heap (o a).2.root).isSome

/-- Attempt `a` received a response but no number could be extracted from
it (an `UpstreamParseMiss`). -/
def attemptMiss {α ε : Type} [LinearOrderedField α]
    (post : JPath × BodyShape → Except ε (ℕ × Doc α)) (a : JPath × BodyShape) : Prop :=
  ∃ st doc, post a = .ok (st, doc) ∧ deepFindNumber doc.heap doc.root = none

/-- The response of the `/api/predict` route handler, as seen by the
caller: HTTP status, the `ok` flag, and the proxy result carried by the
JSON body (absent on the error path). -/
structure ApiResp (α : Type) where
  status : ℕ
  ok : Bool
  result : Option (ProxyResult α)
  deriving DecidableEq

/-- The `/api/predict` route handler: await `tryAllShapes`; on success
mirror its status (`status || 200`) and return its fields with `ok: true`;
a rejected dispatch is caught and answered with HTTP 500, `ok: false` and
no prediction fields. -/
def apiPredict {α ε : Type} [LinearOrderedField α] (e p10 : α → JSNum α)
    (post : JPath × BodyShape → Except ε (ℕ × Doc α))
    (body : List (String × JSVal α)) : ApiResp α :=
  match tryAllShapes e p10 post body with
  | .ok r => ⟨if r.status = 0 then 200 else r.status, true, some r⟩
  | .error _ => ⟨500, false, none⟩

/-! ### Concrete material for witnesses -/

/-- A response document with no numeric content. -/
def missDoc : Doc ℚ := ⟨[], .null⟩

/-- A response document whose root object carries a hit-key number. -/
def hitDoc : Doc ℚ := ⟨[[("price", JSVal.num (.finite 100))]], .ref 0⟩

/-- A stub upstream that yields a number only on the fourth canonical
attempt (root path, unwrapped body). -/
def stubO4 : JPath × BodyShape → ℕ × Doc ℚ :=
  fun a => if a = (.rootPath, .plain) then (200, hitDoc) else (200, missDoc)

/-- A stub upstream from which no attempt extracts a number. -/
def stubAllMiss : JPath × BodyShape → ℕ × Doc ℚ :=
  fun _ => (200, missDoc)

/-- A stub upstream whose first call fails at the transport level. -/
def stubErr : JPath × BodyShape → Except String (ℕ × Doc ℚ) :=
  fun a => if a = (.predict, .plain) then .error "socket hang up" else .ok (200, missDoc)

/-- A `Math.exp` / `Math.pow` stand-in that always returns `NaN`. -/
def wNan : ℚ → JSNum ℚ := fun _ => .nan

/-- A `Math.exp` / `Math.pow` stand-in that always overflows to
`Infinity`. -/
def wInf : ℚ → JSNum ℚ := fun _ => .posInf

/-- A concrete feature object with `procedure_area: 2`. -/
def wFeat : List (String × JSVal ℚ) := [("procedure_area", .num (.finite 2))]

/-- A concrete one-node document whose object carries a non-hit numeric
entry before a hit-key numeric entry. -/
def wHeap : Heap ℚ := [[("a", .num (.finite 7)), ("the_price", .num (.finite 9))]]

/-! ### Lemmas about the sort used by the resolver -/

theorem insertCand_length {α : Type} (prec : Cand α → Cand α → Bool) (x : Cand α) :
    ∀ s : List (Cand α), (insertCand prec x s).length = s.length + 1 := by
  intro s
  induction s with
  | nil => rfl
  | cons y ys ih =>
    simp only [insertCand]
    by_cases h : prec y x = true
    · simp [h, ih]
    · simp [h]

theorem sortCands_length {α : Type} (prec : Cand α → Cand α → Bool) :
    ∀ l : List (Cand α), (sortCands prec l).length = l.length := by
  intro l
  induction l with
  | nil => rfl
  | cons x xs ih => simp [sortCands, insertCand_length, ih]

theorem insertCand_mem {α : Type} (prec : Cand α → Cand α → Bool) (x : Cand α) :
    ∀ (s : List (Cand α)) (y : Cand α), y ∈ insertCand prec x s ↔ y = x ∨ y ∈ s := by
  intro s
  induction s with
  | nil => simp [insertCand]
  | cons z zs ih =>
    intro y
    simp only [insertCand]
    cases h : prec z x with
    | false =>
      rw [if_neg (by simp)]
      simp only [List.mem_cons]
    | true =>
      rw [if_pos rfl]
      simp only [List.mem_cons, ih]
      tauto

theorem sortCands_mem {α : Type} (prec : Cand α → Cand α → Bool) :
    ∀ (l : List (Cand α)) (y : Cand α), y ∈ sortCands prec l ↔ y ∈ l := by
  intro l
  induction l with
  | nil => simp [sortCands]
  | cons x xs ih =>
    intro y
    simp [sortCands, insertCand_mem, ih]

theorem prec_irrefl {α : Type} (prec : Cand α → Cand α → Bool)
    (hasym : ∀ a b, prec a b = true → prec b a = false) (a : Cand α) :
    prec a a = false := by
  cases h : prec a a with
  | false => rfl
  | true => have h2 := hasym a a h; rw [h] at h2; exact h2

/-- The head of the sorted list is an element no other element strictly
precedes (for a comparator that is asymmetric and co-transitive, as both
sort comparators of the source are). -/
theorem sortCands_head_prec {α : Type} (prec : Cand α → Cand α → Bool)
    (hco : ∀ a b c, prec a c = true → prec a b = true ∨ prec b c = true)
    (hasym : ∀ a b, prec a b = true → prec b a = false) :
    ∀ (l : List (Cand α)) (x : Cand α) (t : List (Cand α)),
      sortCands prec l = x :: t → x ∈ l ∧ ∀ c ∈ l, prec c x = false := by
  intro l
  induction l with
  | nil => intro x t h; simp [sortCands] at h
  | cons y ys ih =>
    intro x t h
    simp only [sortCands] at h
    cases hS : sortCands prec ys with
    | nil =>
      have hys : ys = [] := by
        have hlen := sortCands_length prec ys
        rw [hS] at hlen
        exact List.length_eq_zero.mp hlen.symm
      rw [hS] at h
      simp only [insertCand] at h
      injection h with h1 h2
      subst h1
      subst hys
      refine ⟨by simp, ?_⟩
      intro c hc
      simp only [List.mem_singleton] at hc
      rw [hc]
      exact prec_irrefl prec hasym _
    | cons h0 t0 =>
      obtain ⟨hmem0, hmax0⟩ := ih h0 t0 hS
      rw [hS] at h
      simp only [insertCand] at h
      by_cases hp : prec h0 y = true
      · rw [if_pos hp] at h
        injection h with h1 h2
        subst h1
        refine ⟨List.mem_cons_of_mem _ hmem0, ?_⟩
        intro c hc
        rcases List.mem_cons.mp hc with hcy | hcys
        · rw [hcy]
          exact hasym _ _ hp
        · exact hmax0 c hcys
      · rw [if_neg hp] at h
        injection h with h1 h2
        subst h1
        refine ⟨List.mem_cons_self _ _, ?_⟩
        intro c hc
        rcases List.mem_cons.mp hc with hcy | hcys
        · rw [hcy]
          exact prec_irrefl prec hasym _
        · cases hcx : prec c y with
          | false => rfl
          | true =>
            rcases hco c h0 y hcx with h1 | h1
            · rw [hmax0 c hcys] at h1
              simp at h1
            · exact absurd h1 hp

/-! ### Properties of the two comparators -/

theorem prec1_iff {α : Type} [LinearOrderedField α] (a b : Cand α) :
    prec1 a b = true ↔
      (candBonus b < candBonus a ∨ (candBonus a = candBonus b ∧ b.n < a.n)) := by
  simp [prec1]

theorem prec1_asymm {α : Type} [LinearOrderedField α] :
    ∀ a b : Cand α, prec1 a b = true → prec1 b a = false := by
  intro a b h
  rw [prec1_iff] at h
  rw [← Bool.not_eq_true, prec1_iff]
  rcases h with h1 | ⟨h1, h2⟩
  · rintro (h3 | ⟨h3, h4⟩) <;> omega
  · rintro (h3 | ⟨h3, h4⟩)
    · omega
    · exact absurd h4 (not_lt.mpr h2.le)

theorem prec1_co {α : Type} [LinearOrderedField α] :
    ∀ a b c : Cand α, prec1 a c = true → prec1 a b = true ∨ prec1 b c = true := by
  intro a b c h
  rw [prec1_iff] at h
  rw [prec1_iff, prec1_iff]
  rcases h with h1 | ⟨h1, h2⟩
  · rcases Nat.lt_or_ge (candBonus b) (candBonus a) with h3 | h3
    · exact Or.inl (Or.inl h3)
    · exact Or.inr (Or.inl (by omega))
  · rcases Nat.lt_or_ge (candBonus b) (candBonus a) with h3 | h3
    · exact Or.inl (Or.inl h3)
    · rcases Nat.lt_or_ge (candBonus c) (candBonus b) with h4 | h4
      · exact Or.inr (Or.inl h4)
      · rcases lt_or_le b.n a.n with h5 | h5
        · exact Or.inl (Or.inr ⟨by omega, h5⟩)
        · exact Or.inr (Or.inr ⟨by omega, lt_of_lt_of_le h2 h5⟩)

theorem prec2_asymm {α : Type} [LinearOrderedField α] :
    ∀ a b : Cand α, prec2 a b = true → prec2 b a = false := by
  intro a b h
  simp only [prec2, decide_eq_true_eq] at h
  simp only [prec2, decide_eq_false_iff_not, not_lt]
  exact h.le

theorem prec2_co {α : Type} [LinearOrderedField α] :
    ∀ a b c : Cand α, prec2 a c = true → prec2 a b = true ∨ prec2 b c = true := by
  intro a b c h
  simp only [prec2, decide_eq_true_eq] at h ⊢
  rcases lt_or_le b.n a.n with h1 | h1
  · exact Or.inl h1
  · exact Or.inr (lt_of_lt_of_le h h1)

/-! ### Structure of the generated candidate list -/

theorem filterMapKeep_cons {α : Type} [LinearOrderedField α]
    (v : JSNum α) (r : String) (l : List (JSNum α × String)) :
    List.filterMap keepFinite ((v, r) :: l) =
      candOf v r ++ List.filterMap keepFinite l := by
  cases v <;> simp [keepFinite, candOf, List.filterMap_cons]

theorem genCands_eq_filterMap {α : Type} [LinearOrderedField α]
    (e p10 : α → JSNum α) (rawNumber : α) (area : JSNum α) :
    genCands e p10 rawNumber area =
      (rawCandPairs e p10 rawNumber area).filterMap keepFinite := by
  by_cases h : jsGt0 area = true
  · simp only [genCands, rawCandPairs, if_pos h, pushC, List.cons_append,
      List.nil_append, filterMapKeep_cons, List.filterMap_nil, List.append_nil,
      List.append_assoc]
  · simp only [genCands, rawCandPairs, if_neg h, pushC, List.cons_append,
      List.nil_append, filterMapKeep_cons, List.filterMap_nil, List.append_nil,
      List.append_assoc]

theorem genCands_ne_nil {α : Type} [LinearOrderedField α]
    (e p10 : α → JSNum α) (rawNumber : α) (area : JSNum α) :
    genCands e p10 rawNumber area ≠ [] := by
  simp only [genCands, pushC]
  intro h
  rcases List.append_eq_nil.mp h with ⟨-, h2⟩
  simp [candOf] at h2

/-! ### Selection behaviour of the resolver -/

theorem sortCands_ne_nil {α : Type} (prec : Cand α → Cand α → Bool)
    {l : List (Cand α)} (h : l ≠ []) : sortCands prec l ≠ [] := by
  intro hh
  apply h
  have hlen := sortCands_length prec l
  rw [hh] at hlen
  exact List.length_eq_zero.mp hlen.symm

theorem choose_of_plausible_ne_nil {α : Type} [LinearOrderedField α]
    (e p10 : α → JSNum α) (rawNumber : α) (features : List (String × JSVal α))
    (h : plausibleOf (genCands e p10 rawNumber (areaOf features)) ≠ []) :
    choosePlausibleTotal e p10 rawNumber features ∈
        plausibleOf (genCands e p10 rawNumber (areaOf features)) ∧
      ∀ c ∈ plausibleOf (genCands e p10 rawNumber (areaOf features)),
        prec1 c (choosePlausibleTotal e p10 rawNumber features) = false := by
  obtain ⟨x, t, hxt⟩ := List.exists_cons_of_ne_nil (sortCands_ne_nil prec1 h)
  have hhead := sortCands_head_prec prec1 prec1_co prec1_asymm _ x t hxt
  have hc : choosePlausibleTotal e p10 rawNumber features = x := by
    simp only [choosePlausibleTotal]
    rw [hxt]
  rw [hc]
  exact hhead

theorem choose_of_plausible_nil {α : Type} [LinearOrderedField α]
    (e p10 : α → JSNum α) (rawNumber : α) (features : List (String × JSVal α))
    (h : plausibleOf (genCands e p10 rawNumber (areaOf features)) = []) :
    choosePlausibleTotal e p10 rawNumber features ∈
        genCands e p10 rawNumber (areaOf features) ∧
      ∀ c ∈ genCands e p10 rawNumber (areaOf features),
        prec2 c (choosePlausibleTotal e p10 rawNumber features) = false := by
  obtain ⟨x, t, hxt⟩ := List.exists_cons_of_ne_nil
    (sortCands_ne_nil prec2 (genCands_ne_nil e p10 rawNumber (areaOf features)))
  have hhead := sortCands_head_prec prec2 prec2_co prec2_asymm _ x t hxt
  have hc : choosePlausibleTotal e p10 rawNumber features = x := by
    simp only [choosePlausibleTotal]
    rw [h]
    simp only [sortCands]
    rw [hxt]
  rw [hc]
  exact hhead

theorem candBonus_le_one {α : Type} (c : Cand α) : candBonus c ≤ 1 := by
  unfold candBonus
  split <;> omega

theorem isPerSqm_of_candBonus_pos {α : Type} {c : Cand α}
    (h : 1 ≤ candBonus c) : isPerSqm c.rule = true := by
  by_cases hp : isPerSqm c.rule = true
  · exact hp
  · rw [candBonus, if_neg hp] at h
    omega

/-! ### Claims C1 and C9 -/

/-- C1: for every finite `rawNumber` and features, `choosePlausibleTotal`
keeps exactly the generated candidates whose value lies in the inclusive
range [50000, 2000000000]; if that set is non-empty it returns a candidate
from it, preferring candidates whose rule tag contains `per_sqm` over those
that do not, and among equally preferred candidates one of largest value;
if the set is empty it returns a largest candidate among all generated. -/
theorem claim1_resolver_filter_and_selection {α : Type} [LinearOrderedField α]
    (e p10 : α → JSNum α) (rawNumber : α) (features : List (String × JSVal α)) :
    (∀ c, c ∈ plausibleOf (genCands e p10 rawNumber (areaOf features)) ↔
        (c ∈ genCands e p10 rawNumber (areaOf features) ∧
          (50000 : α) ≤ c.n ∧ c.n ≤ 2000000000)) ∧
    (plausibleOf (genCands e p10 rawNumber (areaOf features)) ≠ [] →
      choosePlausibleTotal e p10 rawNumber features ∈
          plausibleOf (genCands e p10 rawNumber (areaOf features)) ∧
        (∀ c ∈ plausibleOf (genCands e p10 rawNumber (areaOf features)),
          isPerSqm c.rule = true →
            isPerSqm (choosePlausibleTotal e p10 rawNumber features).rule = true) ∧
        (∀ c ∈ plausibleOf (genCands e p10 rawNumber (areaOf features)),
          candBonus c = candBonus (choosePlausibleTotal e p10 rawNumber features) →
            c.n ≤ (choosePlausibleTotal e p10 rawNumber features).n)) ∧
    (plausibleOf (genCands e p10 rawNumber (areaOf features)) = [] →
      choosePlausibleTotal e p10 rawNumber features ∈
          genCands e p10 rawNumber (areaOf features) ∧
        ∀ c ∈ genCands e p10 rawNumber (areaOf features),
          c.n ≤ (choosePlausibleTotal e p10 rawNumber features).n) := by
  refine ⟨?_, ?_, ?_⟩
  · intro c
    simp [plausibleOf, List.mem_filter, and_assoc]
  · intro h
    obtain ⟨hmem, hmax⟩ := choose_of_plausible_ne_nil e p10 rawNumber features h
    refine ⟨hmem, ?_, ?_⟩
    · intro c hc hcp
      have h1 := hmax c hc
      rw [← Bool.not_eq_true, prec1_iff] at h1
      push_neg at h1
      obtain ⟨h2, h3⟩ := h1
      have hcb : candBonus c = 1 := by rw [candBonus, if_pos hcp]
      exact isPerSqm_of_candBonus_pos (by omega)
    · intro c hc hbe
      have h1 := hmax c hc
      rw [← Bool.not_eq_true, prec1_iff] at h1
      push_neg at h1
      exact h1.2 hbe
  · intro h
    obtain ⟨hmem, hmax⟩ := choose_of_plausible_nil e p10 rawNumber features h
    refine ⟨hmem, ?_⟩
    intro c hc
    have h1 := hmax c hc
    rw [← Bool.not_eq_true] at h1
    simp only [prec2, decide_eq_true_eq, not_lt] at h1
    exact h1

/-- Witness for C1 at a concrete input: features `{procedure_area: 2}` and
raw number 100000 give a non-empty plausible set, and the selection
properties hold there. -/
theorem claim1_witness :
    plausibleOf (genCands wNan wNan 100000 (areaOf wFeat)) ≠ [] ∧
      (choosePlausibleTotal wNan wNan 100000 wFeat ∈
          plausibleOf (genCands wNan wNan 100000 (areaOf wFeat)) ∧
        (∀ c ∈ plausibleOf (genCands wNan wNan 100000 (areaOf wFeat)),
          isPerSqm c.rule = true →
            isPerSqm (choosePlausibleTotal wNan wNan 100000 wFeat).rule = true) ∧
        (∀ c ∈ plausibleOf (genCands wNan wNan 100000 (areaOf wFeat)),
          candBonus c = candBonus (choosePlausibleTotal wNan wNan 100000 wFeat) →
            c.n ≤ (choosePlausibleTotal wNan wNan 100000 wFeat).n)) :=
  ⟨by decide,
    (claim1_resolver_filter_and_selection wNan wNan 100000 wFeat).2.1 (by decide)⟩

/-- C9: non-finite generated values (e.g. `Math.exp` overflowing to
`Infinity`) are discarded by `push` before both the plausible-range filter
and the fallback: the candidate list is the finiteness-filtered pair list,
the returned candidate is always one of the (finite-valued) candidates, and
the fallback maximum ranges over the finite-valued candidates only. -/
theorem claim9_nonfinite_discarded {α : Type} [LinearOrderedField α]
    (e p10 : α → JSNum α) (rawNumber : α) (features : List (String × JSVal α)) :
    genCands e p10 rawNumber (areaOf features) =
        (rawCandPairs e p10 rawNumber (areaOf features)).filterMap keepFinite ∧
      choosePlausibleTotal e p10 rawNumber features ∈
        genCands e p10 rawNumber (areaOf features) ∧
      (plausibleOf (genCands e p10 rawNumber (areaOf features)) = [] →
        ∀ c ∈ genCands e p10 rawNumber (areaOf features),
          c.n ≤ (choosePlausibleTotal e p10 rawNumber features).n) := by
  refine ⟨genCands_eq_filterMap e p10 rawNumber (areaOf features), ?_, ?_⟩
  · by_cases h : plausibleOf (genCands e p10 rawNumber (areaOf features)) = []
    · exact (choose_of_plausible_nil e p10 rawNumber features h).1
    · have hm := (choose_of_plausible_ne_nil e p10 rawNumber features h).1
      simp only [plausibleOf] at hm
      exact List.mem_of_mem_filter hm
  · intro h c hc
    have h1 := (choose_of_plausible_nil e p10 rawNumber features h).2 c hc
    rw [← Bool.not_eq_true] at h1
    simp only [prec2, decide_eq_true_eq, not_lt] at h1
    exact h1

/-- Witness for C9 at a concrete input: with `Math.exp` and `Math.pow`
overflowing to `Infinity`, raw number 1 and no area feature, the plausible
set is empty and the fallback maximum is taken over the finite candidates
(`raw` and `x1000`) only. -/
theorem claim9_witness :
    plausibleOf (genCands wInf wInf 1 (areaOf ([] : List (String × JSVal ℚ)))) = [] ∧
      ∀ c ∈ genCands wInf wInf 1 (areaOf ([] : List (String × JSVal ℚ))),
        c.n ≤ (choosePlausibleTotal wInf wInf 1 []).n :=
  ⟨by norm_num [plausibleOf, genCands, pushC, candOf, areaOf, lookupKey, jsToNumberU,
      jsOr0, jsGt0, wInf, List.filter],
    (claim9_nonfinite_discarded wInf wInf 1 []).2.2
      (by norm_num [plausibleOf, genCands, pushC, candOf, areaOf, lookupKey, jsToNumberU,
        jsOr0, jsGt0, wInf, List.filter])⟩

/-! ### Real-exponential bounds and claims C5, C6 -/

theorem exp_one_bounds : (2.71:ℝ) ≤ Real.exp 1 ∧ Real.exp 1 ≤ 2.72 := by
  have h1 := Real.exp_one_gt_d9
  have h2 := Real.exp_one_lt_d9
  constructor <;> norm_num at h1 h2 ⊢ <;> linarith

theorem exp_800_big : (2000000000:ℝ) < Real.exp 800 := by
  have h1 : (2.71:ℝ) ≤ Real.exp 1 := exp_one_bounds.1
  have h2 : Real.exp 32 = Real.exp 1 ^ 32 := by
    rw [← Real.exp_nat_mul]
    norm_num
  have h3 : (2:ℝ) ^ 32 ≤ Real.exp 1 ^ 32 := by
    apply pow_le_pow_left₀ (by norm_num) (by linarith) 32
  have h4 : Real.exp 32 ≤ Real.exp 800 := Real.exp_le_exp.mpr (by norm_num)
  have h5 : (2000000000:ℝ) < 2 ^ 32 := by norm_num
  linarith

theorem p10_800_big : (2000000000:ℝ) < (10:ℝ) ^ (800:ℝ) := by
  have h1 : (10:ℝ) ^ (800:ℝ) = (10:ℝ) ^ (800:ℕ) := by
    rw [← Real.rpow_natCast]
    norm_num
  have h2 : (10:ℝ) ^ (10:ℕ) ≤ (10:ℝ) ^ (800:ℕ) :=
    pow_le_pow_right₀ (by norm_num) (by norm_num)
  rw [h1]
  have h3 : (2000000000:ℝ) < 10 ^ (10:ℕ) := by norm_num
  linarith

theorem exp_12_5_ge : (50000:ℝ) ≤ Real.exp 12.5 := by
  have h1 : (2.71:ℝ) ≤ Real.exp 1 := exp_one_bounds.1
  have h2 : Real.exp 12 = Real.exp 1 ^ 12 := by
    rw [← Real.exp_nat_mul]
    norm_num
  have h3 : (2.71:ℝ) ^ 12 ≤ Real.exp 1 ^ 12 := by
    apply pow_le_pow_left₀ (by norm_num) (by linarith) 12
  have h4 : Real.exp 12 ≤ Real.exp 12.5 := Real.exp_le_exp.mpr (by norm_num)
  have h5 : (50000:ℝ) ≤ (2.71:ℝ) ^ 12 := by norm_num
  linarith

theorem exp_12_5_le : Real.exp 12.5 ≤ 450000 := by
  have h1 : Real.exp 1 ≤ (2.72:ℝ) := exp_one_bounds.2
  have h2 : Real.exp 13 = Real.exp 1 ^ 13 := by
    rw [← Real.exp_nat_mul]
    norm_num
  have h3 : Real.exp 1 ^ 13 ≤ (2.72:ℝ) ^ 13 := by
    apply pow_le_pow_left₀ (Real.exp_pos 1).le h1 13
  have h4 : Real.exp 12.5 ≤ Real.exp 13 := Real.exp_le_exp.mpr (by norm_num)
  have h5 : (2.72:ℝ) ^ 13 ≤ 450000 := by norm_num
  linarith

theorem p10_12_5_ge : (1000000000000:ℝ) ≤ (10:ℝ) ^ (12.5:ℝ) := by
  have h1 : (10:ℝ) ^ (12:ℝ) ≤ (10:ℝ) ^ (12.5:ℝ) := by
    apply Real.rpow_le_rpow_of_exponent_le (by norm_num) (by norm_num)
  have h2 : (10:ℝ) ^ (12:ℝ) = (10:ℝ) ^ (12:ℕ) := by
    rw [← Real.rpow_natCast]
    norm_num
  rw [h2] at h1
  have h3 : (1000000000000:ℝ) ≤ (10:ℝ) ^ (12:ℕ) := by norm_num
  linarith

/-- The candidate list generated at rawNumber 12.5, area 1000, with the
real exponential/power-of-ten transforms. -/
theorem resolver_12_5_cands :
    genCands (fun x => (JSNum.finite (Real.exp x) : JSNum ℝ))
      (fun x => (JSNum.finite ((10:ℝ) ^ x) : JSNum ℝ)) 12.5
      (areaOf [("procedure_area", JSVal.num (.finite 1000))]) =
      [⟨12.5, "raw"⟩, ⟨12.5 * 1000, "per_sqm"⟩,
       ⟨Real.exp 12.5 * 1000, "exp_per_sqm"⟩,
       ⟨(10:ℝ) ^ (12.5:ℝ) * 1000, "pow10_per_sqm"⟩,
       ⟨Real.exp 12.5, "exp"⟩, ⟨(10:ℝ) ^ (12.5:ℝ), "pow10"⟩,
       ⟨12.5 * 1000, "x1000"⟩] := by
  have harea : areaOf [("procedure_area", JSVal.num (.finite (1000:ℝ)))] = .finite 1000 := by
    simp [areaOf, lookupKey, jsToNumberU, jsToNumber, jsOr0]
  have hgt : jsGt0 ((JSNum.finite 1000 : JSNum ℝ)) = true := by
    simp only [jsGt0, decide_eq_true_eq]
    norm_num
  simp only [genCands, harea, hgt, if_true, pushC, candOf, jsMul,
    List.nil_append, List.cons_append, List.append_nil]

/-- The plausible-range filter at rawNumber 12.5, area 1000 keeps exactly
the `exp_per_sqm` and `exp` candidates. -/
theorem resolver_12_5_kept :
    plausibleOf (genCands (fun x => (JSNum.finite (Real.exp x) : JSNum ℝ))
      (fun x => (JSNum.finite ((10:ℝ) ^ x) : JSNum ℝ)) 12.5
      (areaOf [("procedure_area", JSVal.num (.finite 1000))])) =
      [⟨Real.exp 12.5 * 1000, "exp_per_sqm"⟩, ⟨Real.exp 12.5, "exp"⟩] := by
  have hA := exp_12_5_ge
  have hB := exp_12_5_le
  have hC := p10_12_5_ge
  have f1 : ¬((50000:ℝ) ≤ 12.5 ∧ (12.5:ℝ) ≤ 2000000000) := by norm_num
  have f2 : ¬((50000:ℝ) ≤ 12.5 * 1000 ∧ (12.5:ℝ) * 1000 ≤ 2000000000) := by norm_num
  have f3 : ((50000:ℝ) ≤ Real.exp 12.5 * 1000 ∧ Real.exp 12.5 * 1000 ≤ 2000000000) := by
    constructor <;> nlinarith
  have f4 : ¬((50000:ℝ) ≤ (10:ℝ) ^ (12.5:ℝ) * 1000 ∧
      (10:ℝ) ^ (12.5:ℝ) * 1000 ≤ 2000000000) := by
    rintro ⟨-, h⟩
    nlinarith
  have f5 : ((50000:ℝ) ≤ Real.exp 12.5 ∧ Real.exp 12.5 ≤ 2000000000) := by
    constructor <;> linarith
  have f6 : ¬((50000:ℝ) ≤ (10:ℝ) ^ (12.5:ℝ) ∧ (10:ℝ) ^ (12.5:ℝ) ≤ 2000000000) := by
    rintro ⟨-, h⟩
    linarith
  rw [resolver_12_5_cands]
  simp only [plausibleOf, List.filter_cons, List.filter_nil, decide_eq_true_eq,
    f1, f2, f3, f4, f5, f6, if_true, if_false]
  simp

/-- The resolver's selection at rawNumber 12.5, area 1000: the plausible
set is non-empty and the `exp_per_sqm` candidate wins on the per-sqm
bonus. -/
theorem resolver_12_5_choose :
    choosePlausibleTotal (fun x => (JSNum.finite (Real.exp x) : JSNum ℝ))
      (fun x => (JSNum.finite ((10:ℝ) ^ x) : JSNum ℝ)) 12.5
      [("procedure_area", JSVal.num (.finite 1000))] =
      ⟨Real.exp 12.5 * 1000, "exp_per_sqm"⟩ := by
  have hb1 : isPerSqm "exp_per_sqm" = true := by decide
  have hb2 : isPerSqm "exp" = false := by decide
  simp only [choosePlausibleTotal, resolver_12_5_kept, sortCands, insertCand,
    prec1, candBonus, hb1, hb2, if_true, if_false]
  norm_num

/-- C5 counterexample: at rawNumber 12.5 with `{procedure_area: 1000}` it is
NOT the case that no generated candidate is plausible — the `exp_per_sqm`
candidate (value e^12.5·1000 ≈ 2.7×10^8) is in the plausible range, and the
resolver does not return the largest generated candidate (the larger
`pow10_per_sqm` candidate is generated but rejected), contradicting the
claimed fallback. -/
theorem claim5_counterexample :
    (⟨Real.exp 12.5 * 1000, "exp_per_sqm"⟩ : Cand ℝ) ∈
      plausibleOf (genCands (fun x => (JSNum.finite (Real.exp x) : JSNum ℝ))
        (fun x => (JSNum.finite ((10:ℝ) ^ x) : JSNum ℝ)) 12.5
        (areaOf [("procedure_area", JSVal.num (.finite 1000))])) ∧
    (⟨(10:ℝ) ^ (12.5:ℝ) * 1000, "pow10_per_sqm"⟩ : Cand ℝ) ∈
      genCands (fun x => (JSNum.finite (Real.exp x) : JSNum ℝ))
        (fun x => (JSNum.finite ((10:ℝ) ^ x) : JSNum ℝ)) 12.5
        (areaOf [("procedure_area", JSVal.num (.finite 1000))]) ∧
    (choosePlausibleTotal (fun x => (JSNum.finite (Real.exp x) : JSNum ℝ))
        (fun x => (JSNum.finite ((10:ℝ) ^ x) : JSNum ℝ)) 12.5
        [("procedure_area", JSVal.num (.finite 1000))]).n <
      (10:ℝ) ^ (12.5:ℝ) * 1000 := by
  refine ⟨?_, ?_, ?_⟩
  · rw [resolver_12_5_kept]
    simp
  · rw [resolver_12_5_cands]
    simp
  · rw [resolver_12_5_choose]
    have hB := exp_12_5_le
    have hC := p10_12_5_ge
    nlinarith

/-- C5 (amended): for rawNumber 12.5 and features `{procedure_area: 1000}`,
the candidates `exp_per_sqm` (e^12.5·1000) and `exp` (e^12.5) fall in the
plausible range, and the resolver selects `exp_per_sqm` with value
e^12.5 × 1000 — it does not fall back. -/
theorem claim5_amended_resolver_at_12_5 :
    plausibleOf (genCands (fun x => (JSNum.finite (Real.exp x) : JSNum ℝ))
        (fun x => (JSNum.finite ((10:ℝ) ^ x) : JSNum ℝ)) 12.5
        (areaOf [("procedure_area", JSVal.num (.finite 1000))])) =
      [⟨Real.exp 12.5 * 1000, "exp_per_sqm"⟩, ⟨Real.exp 12.5, "exp"⟩] ∧
    choosePlausibleTotal (fun x => (JSNum.finite (Real.exp x) : JSNum ℝ))
        (fun x => (JSNum.finite ((10:ℝ) ^ x) : JSNum ℝ)) 12.5
        [("procedure_area", JSVal.num (.finite 1000))] =
      ⟨Real.exp 12.5 * 1000, "exp_per_sqm"⟩ :=
  ⟨resolver_12_5_kept, resolver_12_5_choose⟩

/-- C6: for rawNumber 800 and features `{procedure_area: 1200}`, the
resolver selects the `per_sqm` candidate with value 960000. -/
theorem claim6_resolver_at_800 :
    choosePlausibleTotal (fun x => (JSNum.finite (Real.exp x) : JSNum ℝ))
      (fun x => (JSNum.finite ((10:ℝ) ^ x) : JSNum ℝ)) 800
      [("procedure_area", JSVal.num (.finite 1200))] = ⟨960000, "per_sqm"⟩ := by
  have hexp := exp_800_big
  have hp10 := p10_800_big
  have hexppos := Real.exp_pos (800:ℝ)
  have harea : areaOf [("procedure_area", JSVal.num (.finite (1200:ℝ)))] = .finite 1200 := by
    simp [areaOf, lookupKey, jsToNumberU, jsToNumber, jsOr0]
  have hgt : jsGt0 ((JSNum.finite 1200 : JSNum ℝ)) = true := by
    simp only [jsGt0, decide_eq_true_eq]
    norm_num
  have f1 : ¬((50000:ℝ) ≤ 800 ∧ (800:ℝ) ≤ 2000000000) := by norm_num
  have f2 : ((50000:ℝ) ≤ 800 * 1200 ∧ (800:ℝ) * 1200 ≤ 2000000000) := by norm_num
  have f3 : ¬((50000:ℝ) ≤ Real.exp 800 * 1200 ∧ Real.exp 800 * 1200 ≤ 2000000000) := by
    rintro ⟨-, h⟩
    nlinarith
  have f4 : ¬((50000:ℝ) ≤ (10:ℝ) ^ (800:ℝ) * 1200 ∧
      (10:ℝ) ^ (800:ℝ) * 1200 ≤ 2000000000) := by
    rintro ⟨-, h⟩
    nlinarith
  have f5 : ¬((50000:ℝ) ≤ Real.exp 800 ∧ Real.exp 800 ≤ 2000000000) := by
    rintro ⟨-, h⟩
    linarith
  have f6 : ¬((50000:ℝ) ≤ (10:ℝ) ^ (800:ℝ) ∧ (10:ℝ) ^ (800:ℝ) ≤ 2000000000) := by
    rintro ⟨-, h⟩
    linarith
  have f7 : ((50000:ℝ) ≤ 800 * 1000 ∧ (800:ℝ) * 1000 ≤ 2000000000) := by norm_num
  have hb1 : isPerSqm "per_sqm" = true := by decide
  have hb2 : isPerSqm "x1000" = false := by decide
  simp only [choosePlausibleTotal, genCands, harea, hgt, if_true, pushC, candOf, jsMul,
    List.nil_append, List.cons_append, List.append_nil, plausibleOf, List.filter_cons,
    List.filter_nil, decide_eq_true_eq, f1, f2, f3, f4, f5, f6, f7, if_true, if_false,
    sortCands, insertCand, prec1, candBonus, hb1, hb2]
  norm_num

/-! ### Claim C10 and document evaluation helpers -/

/-- C10: a document whose root is not an object (a bare number, numeric
string, null or boolean) yields `null` from `deepFindNumber`, even though
the root itself is a numeric value. -/
theorem claim10_non_object_root_null {α : Type} [LinearOrderedField α]
    (heap : Heap α) (v : JSVal α) (h : isRefVal v = false) :
    deepFindNumber heap v = none := by
  cases v with
  | ref id => simp [isRefVal] at h
  | null => simp [deepFindNumber, deepFindLoop]
  | boolean b => simp [deepFindNumber, deepFindLoop]
  | num x => simp [deepFindNumber, deepFindLoop]
  | str s => simp [deepFindNumber, deepFindLoop]

/-- Witness for C10: a bare number 5 at the root extracts to `null`. -/
theorem claim10_witness :
    isRefVal (JSVal.num (.finite (5:ℚ))) = false ∧
      deepFindNumber ([] : Heap ℚ) (JSVal.num (.finite 5)) = none :=
  ⟨rfl, claim10_non_object_root_null [] (JSVal.num (.finite 5)) rfl⟩

/-- The numberless stub document extracts to `null`. -/
theorem missDoc_extract : deepFindNumber missDoc.heap missDoc.root = none := by
  simp [missDoc, deepFindNumber, deepFindLoop]

/-- The hit stub document extracts to 100. -/
theorem hitDoc_extract : deepFindNumber hitDoc.heap hitDoc.root = some 100 := by
  simp [hitDoc, deepFindNumber, deepFindLoop, scanEntries, entriesOf,
    show keyHit "price" = true from by decide]

/-! ### Claim C7 -/

/-- C7: every successfully returned ProxyResult has `used_rule = null` iff
`predicted_price = null`, on every return path of `tryAllShapes`. -/
theorem claim7_used_rule_iff_price {α ε : Type} [LinearOrderedField α]
    (e p10 : α → JSNum α) (post : JPath × BodyShape → Except ε (ℕ × Doc α))
    (body : List (String × JSVal α)) (r : ProxyResult α)
    (h : tryAllShapes e p10 post body = .ok r) :
    (r.used_rule = none ↔ r.predicted_price = none) := by
  simp only [tryAllShapes] at h
  cases hfh : firstHitAux post attemptList with
  | error err =>
    simp only [hfh] at h
    exact absurd h (by simp)
  | ok o =>
    simp only [hfh] at h
    cases o with
    | some trip =>
      obtain ⟨st, doc, n⟩ := trip
      simp only [Except.ok.injEq] at h
      rw [← h]
      simp
    | none =>
      cases hp : post (.predict, .plain) with
      | error err =>
        simp only [hp] at h
        exact absurd h (by simp)
      | ok pr =>
        obtain ⟨st, doc⟩ := pr
        simp only [hp] at h
        cases hdn : deepFindNumber doc.heap doc.root with
        | some n =>
          simp only [hdn] at h
          simp only [Except.ok.injEq] at h
          rw [← h]
          simp
        | none =>
          simp only [hdn] at h
          simp only [Except.ok.injEq] at h
          rw [← h]
          simp

/-- Witness for C7: with an upstream from which no attempt extracts a
number, the dispatch returns the all-null result, for which the
equivalence holds. -/
theorem claim7_witness :
    tryAllShapes wNan wNan (okOracle (ε := String) stubAllMiss) [] =
        .ok ⟨200, missDoc, none, none, none⟩ ∧
      ((⟨200, missDoc, none, none, none⟩ : ProxyResult ℚ).used_rule = none ↔
        (⟨200, missDoc, none, none, none⟩ : ProxyResult ℚ).predicted_price = none) := by
  have heq : tryAllShapes wNan wNan (okOracle (ε := String) stubAllMiss) [] =
      .ok ⟨200, missDoc, none, none, none⟩ := by
    simp [tryAllShapes, firstHitAux, attemptList, okOracle, stubAllMiss, missDoc_extract]
  exact ⟨heq, claim7_used_rule_iff_price wNan wNan _ [] _ heq⟩

/-! ### Claim C2 -/

theorem firstHitCalls_take {α ε : Type} [LinearOrderedField α]
    (o : JPath × BodyShape → ℕ × Doc α) :
    ∀ (l : List (JPath × BodyShape)) (k : ℕ),
      l.findIdx? (hitAt o) = some k →
        firstHitCalls (okOracle (ε := ε) o) l = l.take (k + 1) := by
  intro l
  induction l with
  | nil => intro k hk; simp [List.findIdx?] at hk
  | cons a l ih =>
    intro k hk
    cases hp : hitAt o a with
    | true =>
      rw [List.findIdx?_cons, hp, if_pos rfl] at hk
      obtain ⟨n, hn⟩ : ∃ n, deepFindNumber (o a).2.heap (o a).2.root = some n := by
        have := hp
        simp only [hitAt, Option.isSome_iff_exists] at this
        exact this
      injection hk with hk0
      subst hk0
      simp [firstHitCalls, okOracle, hn]
    | false =>
      rw [List.findIdx?_cons, hp, if_neg (by simp), List.findIdx?_succ] at hk
      obtain ⟨k0, hk0, hkk⟩ := Option.map_eq_some'.mp hk
      have hn : deepFindNumber (o a).2.heap (o a).2.root = none := by
        simp only [hitAt] at hp
        exact Option.not_isSome_iff_eq_none.mp (by simp [hp])
      subst hkk
      simp [firstHitCalls, okOracle, hn, ih k0 hk0]

theorem firstHitCalls_all {α ε : Type} [LinearOrderedField α]
    (o : JPath × BodyShape → ℕ × Doc α) :
    ∀ l : List (JPath × BodyShape),
      l.findIdx? (hitAt o) = none →
        firstHitCalls (okOracle (ε := ε) o) l = l := by
  intro l
  induction l with
  | nil => intro _; simp [firstHitCalls]
  | cons a l ih =>
    intro hk
    rw [List.findIdx?_cons] at hk
    cases hp : hitAt o a with
    | true => rw [hp, if_pos rfl] at hk; simp at hk
    | false =>
      rw [hp, if_neg (by simp), List.findIdx?_succ] at hk
      have hn : deepFindNumber (o a).2.heap (o a).2.root = none := by
        simp only [hitAt] at hp
        exact Option.not_isSome_iff_eq_none.mp (by simp [hp])
      simp only [Option.map_eq_none'] at hk
      simp [firstHitCalls, okOracle, hn, ih hk]

theorem firstHitAux_ok_none_of_no_hit {α ε : Type} [LinearOrderedField α]
    (o : JPath × BodyShape → ℕ × Doc α) :
    ∀ l : List (JPath × BodyShape),
      l.findIdx? (hitAt o) = none →
        firstHitAux (okOracle (ε := ε) o) l = .ok none := by
  intro l
  induction l with
  | nil => intro _; rfl
  | cons a l ih =>
    intro hk
    rw [List.findIdx?_cons] at hk
    cases hp : hitAt o a with
    | true => rw [hp, if_pos rfl] at hk; simp at hk
    | false =>
      rw [hp, if_neg (by simp), List.findIdx?_succ] at hk
      have hn : deepFindNumber (o a).2.heap (o a).2.root = none := by
        simp only [hitAt] at hp
        exact Option.not_isSome_iff_eq_none.mp (by simp [hp])
      simp only [Option.map_eq_none'] at hk
      simp [firstHitAux, okOracle, hn, ih hk]

theorem firstHitAux_ok_some_of_hit {α ε : Type} [LinearOrderedField α]
    (o : JPath × BodyShape → ℕ × Doc α) :
    ∀ (l : List (JPath × BodyShape)) (k : ℕ),
      l.findIdx? (hitAt o) = some k →
        ∃ v, firstHitAux (okOracle (ε := ε) o) l = .ok (some v) := by
  intro l
  induction l with
  | nil => intro k hk; simp [List.findIdx?] at hk
  | cons a l ih =>
    intro k hk
    rw [List.findIdx?_cons] at hk
    cases hp : hitAt o a with
    | true =>
      obtain ⟨n, hn⟩ : ∃ n, deepFindNumber (o a).2.heap (o a).2.root = some n := by
        have := hp
        simp only [hitAt, Option.isSome_iff_exists] at this
        exact this
      exact ⟨((o a).1, (o a).2, n), by simp [firstHitAux, okOracle, hn]⟩
    | false =>
      rw [hp, if_neg (by simp), List.findIdx?_succ] at hk
      obtain ⟨k0, hk0, -⟩ := Option.map_eq_some'.mp hk
      have hn : deepFindNumber (o a).2.heap (o a).2.root = none := by
        simp only [hitAt] at hp
        exact Option.not_isSome_iff_eq_none.mp (by simp [hp])
      obtain ⟨v, hv⟩ := ih k0 hk0
      exact ⟨v, by simp [firstHitAux, okOracle, hn, hv]⟩

/-- C2: against an error-free upstream, the dispatcher issues its calls in
the fixed canonical order `attemptList` (`/predict` then root, each crossed
with the three body shapes): if the first hit is at index k the calls are
exactly the first k+1 attempts, and if no attempt yields a number the calls
are exactly the six attempts followed by one extra call to `/predict` with
the unwrapped body. -/
theorem claim2_dispatch_attempt_order {α ε : Type} [LinearOrderedField α]
    (o : JPath × BodyShape → ℕ × Doc α) :
    (∀ k, attemptList.findIdx? (hitAt o) = some k →
      tryAllShapesCalls (okOracle (ε := ε) o) = attemptList.take (k + 1)) ∧
    (attemptList.findIdx? (hitAt o) = none →
      tryAllShapesCalls (okOracle (ε := ε) o) =
        attemptList ++ [(.predict, .plain)]) := by
  constructor
  · intro k hk
    obtain ⟨v, hv⟩ := firstHitAux_ok_some_of_hit (ε := ε) o attemptList k hk
    simp only [tryAllShapesCalls, hv]
    exact firstHitCalls_take o attemptList k hk
  · intro hk
    have hv := firstHitAux_ok_none_of_no_hit (ε := ε) o attemptList hk
    simp only [tryAllShapesCalls, hv]
    rw [firstHitCalls_all o attemptList hk]

/-- Witness for C2: a stub upstream that only answers with a number on the
fourth combination (root path, unwrapped body) receives exactly the first
four calls, in canonical order. -/
theorem claim2_witness :
    attemptList.findIdx? (hitAt stubO4) = some 3 ∧
      tryAllShapesCalls (okOracle (ε := String) stubO4) = attemptList.take 4 := by
  have h1 : hitAt stubO4 (JPath.predict, BodyShape.plain) = false := by
    simp [hitAt, stubO4, missDoc_extract]
  have h2 : hitAt stubO4 (JPath.predict, BodyShape.inData) = false := by
    simp [hitAt, stubO4, missDoc_extract]
  have h3 : hitAt stubO4 (JPath.predict, BodyShape.inDataList) = false := by
    simp [hitAt, stubO4, missDoc_extract]
  have h4 : hitAt stubO4 (JPath.rootPath, BodyShape.plain) = true := by
    simp [hitAt, stubO4, hitDoc_extract]
  have hidx : attemptList.findIdx? (hitAt stubO4) = some 3 := by
    simp [attemptList, List.findIdx?_cons, h1, h2, h3, h4]
  exact ⟨hidx, (claim2_dispatch_attempt_order (ε := String) stubO4).1 3 hidx⟩

/-! ### Claim C8 -/

theorem firstHitAux_append_miss {α ε : Type} [LinearOrderedField α]
    (post : JPath × BodyShape → Except ε (ℕ × Doc α)) :
    ∀ (pre l : List (JPath × BodyShape)), (∀ x ∈ pre, attemptMiss post x) →
      firstHitAux post (pre ++ l) = firstHitAux post l := by
  intro pre
  induction pre with
  | nil => intro l _; rfl
  | cons a pre ih =>
    intro l hmiss
    obtain ⟨st, doc, hpost, hnone⟩ := hmiss a (List.mem_cons_self _ _)
    simp only [List.cons_append, firstHitAux, hpost, hnone]
    exact ih l (fun x hx => hmiss x (List.mem_cons_of_mem _ hx))

theorem firstHitAux_ok_of_okOracle {α ε : Type} [LinearOrderedField α]
    (o : JPath × BodyShape → ℕ × Doc α) :
    ∀ l : List (JPath × BodyShape),
      ∃ v, firstHitAux (okOracle (ε := ε) o) l = .ok v := by
  intro l
  induction l with
  | nil => exact ⟨none, rfl⟩
  | cons a l ih =>
    cases hn : deepFindNumber (o a).2.heap (o a).2.root with
    | some n => exact ⟨some ((o a).1, (o a).2, n), by simp [firstHitAux, okOracle, hn]⟩
    | none =>
      obtain ⟨v, hv⟩ := ih
      exact ⟨v, by simp [firstHitAux, okOracle, hn, hv]⟩

theorem firstHitAux_ok_none_iff {α ε : Type} [LinearOrderedField α]
    (o : JPath × BodyShape → ℕ × Doc α) :
    ∀ l : List (JPath × BodyShape),
      firstHitAux (okOracle (ε := ε) o) l = .ok none ↔
        ∀ a ∈ l, deepFindNumber (o a).2.heap (o a).2.root = none := by
  intro l
  induction l with
  | nil => simp [firstHitAux]
  | cons a l ih =>
    cases hn : deepFindNumber (o a).2.heap (o a).2.root with
    | some n =>
      simp only [firstHitAux, okOracle, hn]
      constructor
      · intro h; simp at h
      · intro h
        have := h a (List.mem_cons_self _ _)
        rw [hn] at this
        simp at this
    | none =>
      simp only [firstHitAux, okOracle, hn]
      rw [ih]
      constructor
      · intro h b hb
        rcases List.mem_cons.mp hb with hb | hb
        · rw [hb]; exact hn
        · exact h b hb
      · intro h b hb
        exact h b (List.mem_cons_of_mem _ hb)

/-- C8: a transport-level error on any attempt (the first attempt not
preceded by a hit, or the final fallback call) rejects the whole dispatch
and is surfaced by the route handler as a 500 `ok:false` response with no
partial result; an error-free upstream always produces a structured `ok`
result, whose prediction fields are all null exactly when all six attempts
and the final fallback call extract no number. -/
theorem claim8_transport_error_vs_parse_miss {α ε : Type} [LinearOrderedField α]
    (e p10 : α → JSNum α) (body : List (String × JSVal α)) :
    (∀ (post : JPath × BodyShape → Except ε (ℕ × Doc α)) (err : ε),
      ((∃ pre a suf, attemptList = pre ++ a :: suf ∧
          (∀ x ∈ pre, attemptMiss post x) ∧ post a = .error err) ∨
        ((∀ x ∈ attemptList, attemptMiss post x) ∧
          post (.predict, .plain) = .error err)) →
      tryAllShapes e p10 post body = .error err ∧
        apiPredict e p10 post body = ⟨500, false, none⟩) ∧
    (∀ o : JPath × BodyShape → ℕ × Doc α,
      ∃ r, tryAllShapes e p10 (okOracle (ε := ε) o) body = .ok r ∧
        ((r.predicted_price_raw = none ∧ r.predicted_price = none ∧
            r.used_rule = none) ↔
          ((∀ a ∈ attemptList, deepFindNumber (o a).2.heap (o a).2.root = none) ∧
            deepFindNumber (o (.predict, .plain)).2.heap
              (o (.predict, .plain)).2.root = none))) := by
  constructor
  · rintro post err (⟨pre, a, suf, hsplit, hmiss, herr⟩ | ⟨hall, herr⟩)
    · have hfa : firstHitAux post attemptList = .error err := by
        rw [hsplit, firstHitAux_append_miss post pre (a :: suf) hmiss]
        simp [firstHitAux, herr]
      constructor
      · simp [tryAllShapes, hfa]
      · have ht : tryAllShapes e p10 post body = .error err := by
          simp [tryAllShapes, hfa]
        simp [apiPredict, ht]
    · have hfa : firstHitAux post attemptList = .ok none := by
        have := firstHitAux_append_miss post attemptList [] hall
        simpa using this
      constructor
      · simp [tryAllShapes, hfa, herr]
      · have ht : tryAllShapes e p10 post body = .error err := by
          simp [tryAllShapes, hfa, herr]
        simp [apiPredict, ht]
  · intro o
    obtain ⟨v, hv⟩ := firstHitAux_ok_of_okOracle (ε := ε) o attemptList
    cases v with
    | some trip =>
      obtain ⟨st, doc, n⟩ := trip
      refine ⟨⟨st, doc, some n, some (choosePlausibleTotal e p10 n body).n,
        some (choosePlausibleTotal e p10 n body).rule⟩, ?_, ?_⟩
      · simp [tryAllShapes, hv]
      · constructor
        · intro h
          simp at h
        · intro h
          have := (firstHitAux_ok_none_iff (ε := ε) o attemptList).mpr h.1
          rw [hv] at this
          simp at this
    | none =>
      have hall := (firstHitAux_ok_none_iff (ε := ε) o attemptList).mp hv
      cases hdn : deepFindNumber (o (.predict, .plain)).2.heap
          (o (.predict, .plain)).2.root with
      | some n =>
        refine ⟨⟨(o (.predict, .plain)).1, (o (.predict, .plain)).2, some n,
          some (choosePlausibleTotal e p10 n body).n,
          some (choosePlausibleTotal e p10 n body).rule⟩, ?_, ?_⟩
        · simp [tryAllShapes, hv, okOracle, hdn]
        · refine iff_of_false ?_ ?_
          · intro h
            exact Option.noConfusion h.1
          · intro h
            exact Option.noConfusion h.2
      | none =>
        refine ⟨⟨(o (.predict, .plain)).1, (o (.predict, .plain)).2,
          none, none, none⟩, ?_, ?_⟩
        · simp [tryAllShapes, hv, okOracle, hdn]
        · exact iff_of_true ⟨rfl, rfl, rfl⟩ ⟨hall, rfl⟩

/-- Witness for C8: a stub upstream whose very first call fails at the
transport level makes the whole dispatch fail and the handler answer 500
with `ok:false` and no result fields. -/
theorem claim8_witness :
    (attemptList = [] ++ ((JPath.predict, BodyShape.plain) ::
        [(JPath.predict, BodyShape.inData), (JPath.predict, BodyShape.inDataList),
         (JPath.rootPath, BodyShape.plain), (JPath.rootPath, BodyShape.inData),
         (JPath.rootPath, BodyShape.inDataList)]) ∧
      stubErr (JPath.predict, BodyShape.plain) = .error "socket hang up") ∧
    tryAllShapes wNan wNan stubErr [] = .error "socket hang up" ∧
      apiPredict wNan wNan stubErr [] = ⟨500, false, none⟩ := by
  refine ⟨⟨by simp [attemptList], by simp [stubErr]⟩, ?_⟩
  exact (claim8_transport_error_vs_parse_miss wNan wNan []).1 stubErr "socket hang up"
    (Or.inl ⟨[], (JPath.predict, BodyShape.plain),
      [(JPath.predict, BodyShape.inData), (JPath.predict, BodyShape.inDataList),
       (JPath.rootPath, BodyShape.plain), (JPath.rootPath, BodyShape.inData),
       (JPath.rootPath, BodyShape.inDataList)],
      by simp [attemptList], by simp, by simp [stubErr]⟩)

/-! ### Unfolding lemmas for the traversal loop -/

theorem deepFindLoop_nil {α : Type} [LinearOrderedField α] (heap : Heap α)
    (visited : List ℕ) (best : Option α) :
    deepFindLoop heap [] visited best = best := by
  simp [deepFindLoop]

theorem deepFindLoop_ref_old {α : Type} [LinearOrderedField α] (heap : Heap α)
    {id : ℕ} (rest : List (JSVal α)) {visited : List ℕ} (best : Option α)
    (hv : id ∈ visited) :
    deepFindLoop heap (.ref id :: rest) visited best =
      deepFindLoop heap rest visited best := by
  simp only [deepFindLoop]
  rw [dif_pos hv]

theorem deepFindLoop_ref_inl {α : Type} [LinearOrderedField α] (heap : Heap α)
    {id : ℕ} (rest : List (JSVal α)) {visited : List ℕ} {best : Option α} {x : α}
    (hv : id ∉ visited) (heq : scanEntries (entriesOf heap id) best [] = .inl x) :
    deepFindLoop heap (.ref id :: rest) visited best = some x := by
  simp only [deepFindLoop]
  rw [dif_neg hv]
  split
  · next x2 h2 =>
    rw [heq] at h2
    injection h2 with h3
    rw [h3]
  · next b2 cs2 h2 =>
    rw [heq] at h2
    exact absurd h2 (by simp)

theorem deepFindLoop_ref_inr {α : Type} [LinearOrderedField α] (heap : Heap α)
    {id : ℕ} (rest : List (JSVal α)) {visited : List ℕ} {best : Option α}
    {b' : Option α} {cs : List (JSVal α)}
    (hv : id ∉ visited) (heq : scanEntries (entriesOf heap id) best [] = .inr (b', cs)) :
    deepFindLoop heap (.ref id :: rest) visited best =
      deepFindLoop heap (cs.reverse ++ rest) (id :: visited) b' := by
  simp only [deepFindLoop]
  rw [dif_neg hv]
  split
  · next x2 h2 =>
    rw [heq] at h2
    exact absurd h2 (by simp)
  · next b2 cs2 h2 =>
    rw [heq] at h2
    injection h2 with h3
    injection h3 with h4 h5
    rw [h4, h5]

theorem deepFindLoop_skip {α : Type} [LinearOrderedField α] (heap : Heap α)
    (cur : JSVal α) (rest : List (JSVal α)) (visited : List ℕ) (best : Option α)
    (h : isRefVal cur = false) :
    deepFindLoop heap (cur :: rest) visited best =
      deepFindLoop heap rest visited best := by
  cases cur with
  | ref id => simp [isRefVal] at h
  | null => simp [deepFindLoop]
  | boolean b => simp [deepFindLoop]
  | num x => simp [deepFindLoop]
  | str s => simp [deepFindLoop]

theorem deepFindTrace_nil {α : Type} [LinearOrderedField α] (heap : Heap α)
    (visited : List ℕ) (best : Option α) :
    deepFindTrace heap [] visited best = (best, []) := by
  simp [deepFindTrace]

theorem deepFindTrace_ref_old {α : Type} [LinearOrderedField α] (heap : Heap α)
    {id : ℕ} (rest : List (JSVal α)) {visited : List ℕ} (best : Option α)
    (hv : id ∈ visited) :
    deepFindTrace heap (.ref id :: rest) visited best =
      deepFindTrace heap rest visited best := by
  simp only [deepFindTrace]
  rw [dif_pos hv]

theorem deepFindTrace_ref_inl {α : Type} [LinearOrderedField α] (heap : Heap α)
    {id : ℕ} (rest : List (JSVal α)) {visited : List ℕ} {best : Option α} {x : α}
    (hv : id ∉ visited) (heq : scanEntries (entriesOf heap id) best [] = .inl x) :
    deepFindTrace heap (.ref id :: rest) visited best = (some x, [id]) := by
  simp only [deepFindTrace]
  rw [dif_neg hv]
  split
  · next x2 h2 =>
    rw [heq] at h2
    injection h2 with h3
    rw [h3]
  · next b2 cs2 h2 =>
    rw [heq] at h2
    exact absurd h2 (by simp)

theorem deepFindTrace_ref_inr {α : Type} [LinearOrderedField α] (heap : Heap α)
    {id : ℕ} (rest : List (JSVal α)) {visited : List ℕ} {best : Option α}
    {b' : Option α} {cs : List (JSVal α)}
    (hv : id ∉ visited) (heq : scanEntries (entriesOf heap id) best [] = .inr (b', cs)) :
    deepFindTrace heap (.ref id :: rest) visited best =
      ((deepFindTrace heap (cs.reverse ++ rest) (id :: visited) b').1,
        id :: (deepFindTrace heap (cs.reverse ++ rest) (id :: visited) b').2) := by
  simp only [deepFindTrace]
  rw [dif_neg hv]
  split
  · next x2 h2 =>
    rw [heq] at h2
    exact absurd h2 (by simp)
  · next b2 cs2 h2 =>
    rw [heq] at h2
    injection h2 with h3
    injection h3 with h4 h5
    rw [h4, h5]

theorem deepFindTrace_skip {α : Type} [LinearOrderedField α] (heap : Heap α)
    (cur : JSVal α) (rest : List (JSVal α)) (visited : List ℕ) (best : Option α)
    (h : isRefVal cur = false) :
    deepFindTrace heap (cur :: rest) visited best =
      deepFindTrace heap rest visited best := by
  cases cur with
  | ref id => simp [isRefVal] at h
  | null => simp [deepFindTrace]
  | boolean b => simp [deepFindTrace]
  | num x => simp [deepFindTrace]
  | str s => simp [deepFindTrace]

/-! ### Claim C4: termination and single visits -/

theorem deepFindTrace_fst {α : Type} [LinearOrderedField α] (heap : Heap α) :
    ∀ (stack : List (JSVal α)) (visited : List ℕ) (best : Option α),
      (deepFindTrace heap stack visited best).1 =
        deepFindLoop heap stack visited best := by
  intro stack visited best
  induction stack, visited, best using deepFindLoop.induct heap with
  | case1 visited best =>
    rw [deepFindTrace_nil, deepFindLoop_nil]
  | case2 rest visited best id hv ih =>
    rw [deepFindTrace_ref_old heap rest best hv, deepFindLoop_ref_old heap rest best hv]
    exact ih
  | case3 rest visited best id hv x heq =>
    rw [deepFindTrace_ref_inl heap rest hv heq, deepFindLoop_ref_inl heap rest hv heq]
  | case4 rest visited best id hv b' cs heq ih =>
    rw [deepFindTrace_ref_inr heap rest hv heq, deepFindLoop_ref_inr heap rest hv heq]
    exact ih
  | case5 rest visited best ih =>
    rw [deepFindTrace_skip heap JSVal.null rest visited best rfl,
      deepFindLoop_skip heap JSVal.null rest visited best rfl]
    exact ih
  | case6 rest visited best b ih =>
    rw [deepFindTrace_skip heap (JSVal.boolean b) rest visited best rfl,
      deepFindLoop_skip heap (JSVal.boolean b) rest visited best rfl]
    exact ih
  | case7 rest visited best x ih =>
    rw [deepFindTrace_skip heap (JSVal.num x) rest visited best rfl,
      deepFindLoop_skip heap (JSVal.num x) rest visited best rfl]
    exact ih
  | case8 rest visited best s ih =>
    rw [deepFindTrace_skip heap (JSVal.str s) rest visited best rfl,
      deepFindLoop_skip heap (JSVal.str s) rest visited best rfl]
    exact ih

theorem deepFindTrace_nodup {α : Type} [LinearOrderedField α] (heap : Heap α) :
    ∀ (stack : List (JSVal α)) (visited : List ℕ) (best : Option α),
      (∀ i ∈ (deepFindTrace heap stack visited best).2, i ∉ visited) ∧
        (deepFindTrace heap stack visited best).2.Nodup := by
  intro stack visited best
  induction stack, visited, best using deepFindLoop.induct heap with
  | case1 visited best =>
    rw [deepFindTrace_nil]
    simp
  | case2 rest visited best id hv ih =>
    rw [deepFindTrace_ref_old heap rest best hv]
    exact ih
  | case3 rest visited best id hv x heq =>
    rw [deepFindTrace_ref_inl heap rest hv heq]
    simp [hv]
  | case4 rest visited best id hv b' cs heq ih =>
    rw [deepFindTrace_ref_inr heap rest hv heq]
    obtain ⟨ih1, ih2⟩ := ih
    constructor
    · intro i hi
      rcases List.mem_cons.mp hi with hi | hi
      · rw [hi]; exact hv
      · have := ih1 i hi
        intro hcon
        exact this (List.mem_cons_of_mem _ hcon)
    · refine List.nodup_cons.mpr ⟨?_, ih2⟩
      intro hcon
      exact (ih1 id hcon) (List.mem_cons_self _ _)
  | case5 rest visited best ih =>
    rw [deepFindTrace_skip heap JSVal.null rest visited best rfl]
    exact ih
  | case6 rest visited best b ih =>
    rw [deepFindTrace_skip heap (JSVal.boolean b) rest visited best rfl]
    exact ih
  | case7 rest visited best x ih =>
    rw [deepFindTrace_skip heap (JSVal.num x) rest visited best rfl]
    exact ih
  | case8 rest visited best s ih =>
    rw [deepFindTrace_skip heap (JSVal.str s) rest visited best rfl]
    exact ih

theorem deepFindFuel_reaches {α : Type} [LinearOrderedField α] (heap : Heap α) :
    ∀ (stack : List (JSVal α)) (visited : List ℕ) (best : Option α),
      ∃ f, ∀ g, f ≤ g →
        deepFindFuel heap g stack visited best =
          some (deepFindLoop heap stack visited best) := by
  intro stack visited best
  induction stack, visited, best using deepFindLoop.induct heap with
  | case1 visited best =>
    refine ⟨0, fun g _ => ?_⟩
    rw [deepFindLoop_nil]
    cases g <;> rfl
  | case2 rest visited best id hv ih =>
    obtain ⟨f, hf⟩ := ih
    refine ⟨f + 1, fun g hg => ?_⟩
    obtain ⟨g', rfl⟩ : ∃ g', g = g' + 1 := ⟨g - 1, by omega⟩
    rw [deepFindLoop_ref_old heap rest best hv]
    simp only [deepFindFuel, if_pos hv]
    exact hf g' (by omega)
  | case3 rest visited best id hv x heq =>
    refine ⟨1, fun g hg => ?_⟩
    obtain ⟨g', rfl⟩ : ∃ g', g = g' + 1 := ⟨g - 1, by omega⟩
    rw [deepFindLoop_ref_inl heap rest hv heq]
    simp only [deepFindFuel, if_neg hv, heq]
  | case4 rest visited best id hv b' cs heq ih =>
    obtain ⟨f, hf⟩ := ih
    refine ⟨f + 1, fun g hg => ?_⟩
    obtain ⟨g', rfl⟩ : ∃ g', g = g' + 1 := ⟨g - 1, by omega⟩
    rw [deepFindLoop_ref_inr heap rest hv heq]
    simp only [deepFindFuel, if_neg hv, heq]
    exact hf g' (by omega)
  | case5 rest visited best ih =>
    obtain ⟨f, hf⟩ := ih
    refine ⟨f + 1, fun g hg => ?_⟩
    obtain ⟨g', rfl⟩ : ∃ g', g = g' + 1 := ⟨g - 1, by omega⟩
    rw [deepFindLoop_skip heap JSVal.null rest visited best rfl]
    simp only [deepFindFuel]
    exact hf g' (by omega)
  | case6 rest visited best b ih =>
    obtain ⟨f, hf⟩ := ih
    refine ⟨f + 1, fun g hg => ?_⟩
    obtain ⟨g', rfl⟩ : ∃ g', g = g' + 1 := ⟨g - 1, by omega⟩
    rw [deepFindLoop_skip heap (JSVal.boolean b) rest visited best rfl]
    simp only [deepFindFuel]
    exact hf g' (by omega)
  | case7 rest visited best x ih =>
    obtain ⟨f, hf⟩ := ih
    refine ⟨f + 1, fun g hg => ?_⟩
    obtain ⟨g', rfl⟩ : ∃ g', g = g' + 1 := ⟨g - 1, by omega⟩
    rw [deepFindLoop_skip heap (JSVal.num x) rest visited best rfl]
    simp only [deepFindFuel]
    exact hf g' (by omega)
  | case8 rest visited best s ih =>
    obtain ⟨f, hf⟩ := ih
    refine ⟨f + 1, fun g hg => ?_⟩
    obtain ⟨g', rfl⟩ : ∃ g', g = g' + 1 := ⟨g - 1, by omega⟩
    rw [deepFindLoop_skip heap (JSVal.str s) rest visited best rfl]
    simp only [deepFindFuel]
    exact hf g' (by omega)

/-- C4: on every document, cyclic or not, the traversal of `deepFindNumber`
terminates — some finite fuel suffices for the step-indexed loop to return
its value — and each object node is processed at most once: the trace of
processed node identities has no duplicates and agrees with the returned
value. -/
theorem claim4_extract_terminates_single_visit {α : Type} [LinearOrderedField α]
    (heap : Heap α) (root : JSVal α) :
    (∃ f, ∀ g, f ≤ g →
      deepFindFuel heap g [root] [] none = some (deepFindNumber heap root)) ∧
    (deepFindTrace heap [root] [] none).1 = deepFindNumber heap root ∧
    (deepFindTrace heap [root] [] none).2.Nodup :=
  ⟨deepFindFuel_reaches heap [root] [] none,
    deepFindTrace_fst heap [root] [] none,
    (deepFindTrace_nodup heap [root] [] none).2⟩

/-! ### Claim C3: hit keys win over earlier non-hit numerics -/

theorem scanEntries_inl_hit {α : Type} [LinearOrderedField α] :
    ∀ (entries : List (String × JSVal α)) (best : Option α) (acc : List (JSVal α)) (x : α),
      scanEntries entries best acc = .inl x →
        ∃ k val, (k, val) ∈ entries ∧ keyHit k = true ∧ numValOf val = some x := by
  intro entries
  induction entries with
  | nil =>
    intro best acc x h
    simp [scanEntries] at h
  | cons e rest ih =>
    intro best acc x h
    obtain ⟨k, v⟩ := e
    cases v with
    | null =>
      simp only [scanEntries] at h
      obtain ⟨k0, v0, hm, hk0, hv0⟩ := ih _ _ _ h
      exact ⟨k0, v0, List.mem_cons_of_mem _ hm, hk0, hv0⟩
    | boolean b =>
      simp only [scanEntries] at h
      obtain ⟨k0, v0, hm, hk0, hv0⟩ := ih _ _ _ h
      exact ⟨k0, v0, List.mem_cons_of_mem _ hm, hk0, hv0⟩
    | str s =>
      simp only [scanEntries] at h
      cases hp : parseNumStr (α := α) s with
      | some y =>
        simp only [hp] at h
        by_cases hk : keyHit k = true
        · rw [if_pos hk] at h
          injection h with h1
          exact ⟨k, .str s, List.mem_cons_self _ _, hk, by simp [numValOf, hp, h1]⟩
        · rw [if_neg hk] at h
          obtain ⟨k0, v0, hm, hk0, hv0⟩ := ih _ _ _ h
          exact ⟨k0, v0, List.mem_cons_of_mem _ hm, hk0, hv0⟩
      | none =>
        simp only [hp] at h
        obtain ⟨k0, v0, hm, hk0, hv0⟩ := ih _ _ _ h
        exact ⟨k0, v0, List.mem_cons_of_mem _ hm, hk0, hv0⟩
    | ref i =>
      simp only [scanEntries] at h
      obtain ⟨k0, v0, hm, hk0, hv0⟩ := ih _ _ _ h
      exact ⟨k0, v0, List.mem_cons_of_mem _ hm, hk0, hv0⟩
    | num y =>
      cases y with
      | finite z =>
        simp only [scanEntries] at h
        by_cases hk : keyHit k = true
        · rw [if_pos hk] at h
          injection h with h1
          exact ⟨k, .num (.finite z), List.mem_cons_self _ _, hk, by simp [numValOf, h1]⟩
        · rw [if_neg hk] at h
          obtain ⟨k0, v0, hm, hk0, hv0⟩ := ih _ _ _ h
          exact ⟨k0, v0, List.mem_cons_of_mem _ hm, hk0, hv0⟩
      | posInf =>
        simp only [scanEntries] at h
        obtain ⟨k0, v0, hm, hk0, hv0⟩ := ih _ _ _ h
        exact ⟨k0, v0, List.mem_cons_of_mem _ hm, hk0, hv0⟩
      | negInf =>
        simp only [scanEntries] at h
        obtain ⟨k0, v0, hm, hk0, hv0⟩ := ih _ _ _ h
        exact ⟨k0, v0, List.mem_cons_of_mem _ hm, hk0, hv0⟩
      | nan =>
        simp only [scanEntries] at h
        obtain ⟨k0, v0, hm, hk0, hv0⟩ := ih _ _ _ h
        exact ⟨k0, v0, List.mem_cons_of_mem _ hm, hk0, hv0⟩

theorem scanEntries_complete_hit {α : Type} [LinearOrderedField α] {v : α} :
    ∀ (entries : List (String × JSVal α)) (best : Option α) (acc : List (JSVal α)),
      (∃ k val, (k, val) ∈ entries ∧ keyHit k = true ∧ numValOf val = some v) →
        ∃ x, scanEntries entries best acc = .inl x := by
  intro entries
  induction entries with
  | nil =>
    intro best acc h
    obtain ⟨k, val, hm, -, -⟩ := h
    simp at hm
  | cons e rest ih =>
    intro best acc h
    obtain ⟨k, val, hm, hk, hval⟩ := h
    obtain ⟨k0, v0⟩ := e
    rcases List.mem_cons.mp hm with hm | hm
    · injection hm with hm1 hm2
      subst hm1
      subst hm2
      cases val with
      | num y =>
        cases y with
        | finite z =>
          refine ⟨z, ?_⟩
          simp only [scanEntries]
          rw [if_pos hk]
        | posInf => simp [numValOf] at hval
        | negInf => simp [numValOf] at hval
        | nan => simp [numValOf] at hval
      | str s =>
        have hp : parseNumStr (α := α) s = some v := hval
        refine ⟨v, ?_⟩
        simp only [scanEntries, hp]
        rw [if_pos hk]
      | null => simp [numValOf] at hval
      | boolean b => simp [numValOf] at hval
      | ref i => simp [numValOf] at hval
    · have hex : ∃ k val, (k, val) ∈ rest ∧ keyHit k = true ∧ numValOf val = some v :=
        ⟨k, val, hm, hk, hval⟩
      cases v0 with
      | null => exact (ih _ _ hex).imp (fun x hx => by simpa [scanEntries] using hx)
      | boolean b => exact (ih _ _ hex).imp (fun x hx => by simpa [scanEntries] using hx)
      | ref i => exact (ih _ _ hex).imp (fun x hx => by simpa [scanEntries] using hx)
      | str s =>
        cases hp : parseNumStr (α := α) s with
        | some y =>
          by_cases hk0 : keyHit k0 = true
          · exact ⟨y, by simp only [scanEntries, hp]; rw [if_pos hk0]⟩
          · obtain ⟨x, hx⟩ := ih (if best.isNone then some y else best) acc hex
            exact ⟨x, by simp only [scanEntries, hp]; rw [if_neg hk0]; exact hx⟩
        | none =>
          obtain ⟨x, hx⟩ := ih best acc hex
          exact ⟨x, by simp only [scanEntries, hp]; exact hx⟩
      | num y =>
        cases y with
        | finite z =>
          by_cases hk0 : keyHit k0 = true
          · exact ⟨z, by simp only [scanEntries]; rw [if_pos hk0]⟩
          · obtain ⟨x, hx⟩ := ih (if best.isNone then some z else best) acc hex
            exact ⟨x, by simp only [scanEntries]; rw [if_neg hk0]; exact hx⟩
        | posInf => exact (ih _ _ hex).imp (fun x hx => by simpa [scanEntries] using hx)
        | negInf => exact (ih _ _ hex).imp (fun x hx => by simpa [scanEntries] using hx)
        | nan => exact (ih _ _ hex).imp (fun x hx => by simpa [scanEntries] using hx)

theorem scanEntries_children {α : Type} [LinearOrderedField α] :
    ∀ (entries : List (String × JSVal α)) (best : Option α) (acc : List (JSVal α))
      (b' : Option α) (cs : List (JSVal α)),
      scanEntries entries best acc = .inr (b', cs) →
        (∀ w ∈ acc, w ∈ cs) ∧
          ∀ k j, (k, JSVal.ref j) ∈ entries → JSVal.ref j ∈ cs := by
  intro entries
  induction entries with
  | nil =>
    intro best acc b' cs h
    simp only [scanEntries, Sum.inr.injEq, Prod.mk.injEq] at h
    obtain ⟨-, h2⟩ := h
    subst h2
    exact ⟨fun w hw => hw, by simp⟩
  | cons e rest ih =>
    intro best acc b' cs h
    obtain ⟨k0, v0⟩ := e
    cases v0 with
    | null =>
      simp only [scanEntries] at h
      obtain ⟨hs1, hs2⟩ := ih _ _ _ _ h
      refine ⟨hs1, ?_⟩
      intro k j hm
      rcases List.mem_cons.mp hm with hm | hm
      · injection hm with hm1 hm2
        exact JSVal.noConfusion hm2
      · exact hs2 k j hm
    | boolean b =>
      simp only [scanEntries] at h
      obtain ⟨hs1, hs2⟩ := ih _ _ _ _ h
      refine ⟨hs1, ?_⟩
      intro k j hm
      rcases List.mem_cons.mp hm with hm | hm
      · injection hm with hm1 hm2
        exact JSVal.noConfusion hm2
      · exact hs2 k j hm
    | str s =>
      simp only [scanEntries] at h
      have hrec : scanEntries rest
          (match parseNumStr (α := α) s with
            | some y => if keyHit k0 then none else (if best.isNone then some y else best)
            | none => best) acc = .inr (b', cs) ∨
          scanEntries rest best acc = .inr (b', cs) ∨
          (∃ y, parseNumStr (α := α) s = some y ∧
            scanEntries rest (if best.isNone then some y else best) acc = .inr (b', cs)) := by
        cases hp : parseNumStr (α := α) s with
        | some y =>
          simp only [hp] at h
          by_cases hk0 : keyHit k0 = true
          · rw [if_pos hk0] at h
            exact absurd h (by simp)
          · rw [if_neg hk0] at h
            exact Or.inr (Or.inr ⟨y, rfl, h⟩)
        | none =>
          simp only [hp] at h
          exact Or.inr (Or.inl h)
      have main : (∀ w ∈ acc, w ∈ cs) ∧ ∀ k j, (k, JSVal.ref j) ∈ rest → JSVal.ref j ∈ cs := by
        rcases hrec with h2 | h2 | ⟨y, -, h2⟩
        · exact ih _ _ _ _ h2
        · exact ih _ _ _ _ h2
        · exact ih _ _ _ _ h2
      refine ⟨main.1, ?_⟩
      intro k j hm
      rcases List.mem_cons.mp hm with hm | hm
      · injection hm with hm1 hm2
        exact JSVal.noConfusion hm2
      · exact main.2 k j hm
    | ref i =>
      simp only [scanEntries] at h
      obtain ⟨hs1, hs2⟩ := ih _ _ _ _ h
      refine ⟨fun w hw => hs1 w (List.mem_append_left _ hw), ?_⟩
      intro k j hm
      rcases List.mem_cons.mp hm with hm | hm
      · injection hm with hm1 hm2
        injection hm2 with hm3
        subst hm3
        exact hs1 (JSVal.ref j) (List.mem_append_right _ (by simp))
      · exact hs2 k j hm
    | num y =>
      cases y with
      | finite z =>
        simp only [scanEntries] at h
        by_cases hk0 : keyHit k0 = true
        · rw [if_pos hk0] at h
          exact absurd h (by simp)
        · rw [if_neg hk0] at h
          obtain ⟨hs1, hs2⟩ := ih _ _ _ _ h
          refine ⟨hs1, ?_⟩
          intro k j hm
          rcases List.mem_cons.mp hm with hm | hm
          · injection hm with hm1 hm2
            exact JSVal.noConfusion hm2
          · exact hs2 k j hm
      | posInf =>
        simp only [scanEntries] at h
        obtain ⟨hs1, hs2⟩ := ih _ _ _ _ h
        refine ⟨hs1, ?_⟩
        intro k j hm
        rcases List.mem_cons.mp hm with hm | hm
        · injection hm with hm1 hm2
          exact JSVal.noConfusion hm2
        · exact hs2 k j hm
      | negInf =>
        simp only [scanEntries] at h
        obtain ⟨hs1, hs2⟩ := ih _ _ _ _ h
        refine ⟨hs1, ?_⟩
        intro k j hm
        rcases List.mem_cons.mp hm with hm | hm
        · injection hm with hm1 hm2
          exact JSVal.noConfusion hm2
        · exact hs2 k j hm
      | nan =>
        simp only [scanEntries] at h
        obtain ⟨hs1, hs2⟩ := ih _ _ _ _ h
        refine ⟨hs1, ?_⟩
        intro k j hm
        rcases List.mem_cons.mp hm with hm | hm
        · injection hm with hm1 hm2
          exact JSVal.noConfusion hm2
        · exact hs2 k j hm

theorem reachA_start_not_mem {α : Type} {heap : Heap α} {avoid : List ℕ} {a b : ℕ}
    (h : ReachA heap avoid a b) : a ∉ avoid := by
  cases h with
  | refl _ hi => exact hi
  | step hi _ _ => exact hi

theorem reachA_extend {α : Type} {heap : Heap α} {avoid : List ℕ} {s n id : ℕ}
    (h : ReachA heap avoid s n) : n ≠ id →
    ∃ s', (s' = s ∨ HasRefEntry heap id s') ∧ ReachA heap (id :: avoid) s' n := by
  induction h with
  | refl i hi =>
    intro hn
    exact ⟨i, Or.inl rfl, ReachA.refl i (by
      intro hc
      rcases List.mem_cons.mp hc with hc | hc
      · exact hn hc
      · exact hi hc)⟩
  | step hi hij hjk ih =>
    intro hn
    obtain ⟨s', hor, hreach⟩ := ih hn
    rcases hor with hor | hor
    · subst hor
      rename_i i j
      by_cases hid : i = id
      · exact ⟨s', Or.inr (hid ▸ hij), hreach⟩
      · refine ⟨i, Or.inl rfl, ReachA.step ?_ hij hreach⟩
        intro hc
        rcases List.mem_cons.mp hc with hc | hc
        · exact hid hc
        · exact hi hc
    · exact ⟨s', Or.inr hor, hreach⟩

theorem deepFindLoop_finds_hit {α : Type} [LinearOrderedField α] (heap : Heap α) :
    ∀ (stack : List (JSVal α)) (visited : List ℕ) (best : Option α),
      (∃ s n, JSVal.ref s ∈ stack ∧ ReachA heap visited s n ∧ HitAt heap n) →
        ∃ m v, deepFindLoop heap stack visited best = some v ∧ HitPair heap m v := by
  intro stack visited best
  induction stack, visited, best using deepFindLoop.induct heap with
  | case1 visited best =>
    rintro ⟨s, n, hsin, -, -⟩
    simp at hsin
  | case2 rest visited best id hv ih =>
    rintro ⟨s, n, hsin, hreach, hhit⟩
    rw [deepFindLoop_ref_old heap rest best hv]
    rcases List.mem_cons.mp hsin with hs | hs
    · injection hs with hs1
      subst hs1
      exact absurd hv (reachA_start_not_mem hreach)
    · exact ih ⟨s, n, hs, hreach, hhit⟩
  | case3 rest visited best id hv x heq =>
    rintro ⟨s, n, hsin, hreach, hhit⟩
    obtain ⟨k, val, hm, hk, hval⟩ := scanEntries_inl_hit _ _ _ _ heq
    exact ⟨id, x, deepFindLoop_ref_inl heap rest hv heq, k, val, hm, hk, hval⟩
  | case4 rest visited best id hv b' cs heq ih =>
    rintro ⟨s, n, hsin, hreach, hhit⟩
    rw [deepFindLoop_ref_inr heap rest hv heq]
    have hn : n ≠ id := by
      intro hc
      subst hc
      obtain ⟨v0, hp0⟩ := hhit
      obtain ⟨x0, hx0⟩ := scanEntries_complete_hit (entriesOf heap n) best [] hp0
      rw [hx0] at heq
      exact Sum.noConfusion heq
    obtain ⟨hsub, hchild⟩ := scanEntries_children _ _ _ _ _ heq
    rcases List.mem_cons.mp hsin with hs | hs
    · injection hs with hs1
      subst hs1
      obtain ⟨s', hor, hreach'⟩ := reachA_extend hreach hn
      rcases hor with hor | hor
      · subst hor
        exact absurd (List.mem_cons_self _ _) (reachA_start_not_mem hreach')
      · obtain ⟨k', hk'⟩ := hor
        refine ih ⟨s', n, ?_, hreach', hhit⟩
        exact List.mem_append_left _ (List.mem_reverse.mpr (hchild k' s' hk'))
    · obtain ⟨s', hor, hreach'⟩ := reachA_extend hreach hn
      rcases hor with hor | hor
      · subst hor
        exact ih ⟨s', n, List.mem_append_right _ hs, hreach', hhit⟩
      · obtain ⟨k', hk'⟩ := hor
        refine ih ⟨s', n, ?_, hreach', hhit⟩
        exact List.mem_append_left _ (List.mem_reverse.mpr (hchild k' s' hk'))
  | case5 rest visited best ih =>
    rintro ⟨s, n, hsin, hreach, hhit⟩
    rw [deepFindLoop_skip heap JSVal.null rest visited best rfl]
    rcases List.mem_cons.mp hsin with hs | hs
    · exact JSVal.noConfusion hs
    · exact ih ⟨s, n, hs, hreach, hhit⟩
  | case6 rest visited best b ih =>
    rintro ⟨s, n, hsin, hreach, hhit⟩
    rw [deepFindLoop_skip heap (JSVal.boolean b) rest visited best rfl]
    rcases List.mem_cons.mp hsin with hs | hs
    · exact JSVal.noConfusion hs
    · exact ih ⟨s, n, hs, hreach, hhit⟩
  | case7 rest visited best x ih =>
    rintro ⟨s, n, hsin, hreach, hhit⟩
    rw [deepFindLoop_skip heap (JSVal.num x) rest visited best rfl]
    rcases List.mem_cons.mp hsin with hs | hs
    · exact JSVal.noConfusion hs
    · exact ih ⟨s, n, hs, hreach, hhit⟩
  | case8 rest visited best s2 ih =>
    rintro ⟨s, n, hsin, hreach, hhit⟩
    rw [deepFindLoop_skip heap (JSVal.str s2) rest visited best rfl]
    rcases List.mem_cons.mp hsin with hs | hs
    · exact JSVal.noConfusion hs
    · exact ih ⟨s, n, hs, hreach, hhit⟩

/-- C3: if any node reachable from the root object carries a hit-key entry
with a numeric reading (a finite number, or a string parsing as a plain
decimal after stripping commas and spaces), then `deepFindNumber` returns a
hit-key numeric value — never an earlier-seen non-hit fallback. -/
theorem claim3_extract_hit_key_wins {α : Type} [LinearOrderedField α]
    (heap : Heap α) (rootId n : ℕ)
    (hreach : ReachA heap [] rootId n) (hhit : HitAt heap n) :
    ∃ m v, deepFindNumber heap (.ref rootId) = some v ∧ HitPair heap m v :=
  deepFindLoop_finds_hit heap [.ref rootId] [] none
    ⟨rootId, n, by simp, hreach, hhit⟩

/-- Witness for C3: in a one-node document whose object lists a non-hit
numeric entry `a: 7` before the hit entry `the_price: 9`, the hypotheses
hold and the extractor returns a hit value. -/
theorem claim3_witness :
    ReachA wHeap [] 0 0 ∧ HitAt wHeap 0 ∧
      ∃ m v, deepFindNumber wHeap (.ref 0) = some v ∧ HitPair wHeap m v := by
  have h1 : ReachA wHeap [] 0 0 := ReachA.refl 0 (by simp)
  have h2 : HitAt wHeap 0 :=
    ⟨9, "the_price", .num (.finite 9), by simp [wHeap, entriesOf], by decide, rfl⟩
  exact ⟨h1, h2, claim3_extract_hit_key_wins wHeap 0 0 h1 h2⟩

end EstateMate
